import Mathlib

/-!
# zkctl: a verification development

A shallow embedding of `main.go` of `crosbymichael/zkctl`, a command-line
client for ZooKeeper.

* Go strings are lists of characters (`Str`).  The only characters the code
  inspects are `/` and `.`, which are single bytes in UTF-8.
* The ZooKeeper connection (`zookeeper *zk.Conn`) is an explicit session
  handle: a record of state-passing operations over an arbitrary state type.
* Everything the process does that is visible from outside (session calls,
  log lines, printed text, `Close`, `os.Exit`) is appended to a trace.
* `deleteRecursive` and the `goto forever` loop of `watch` need not terminate
  for an arbitrary session; they carry a fuel argument and return `none` when
  it runs out.
-/

namespace Zkctl

/-- Go `string`. -/
abbrev Str := List Char

/-! ## `path/filepath` (Unix) -/

/-- The elements of a path: the pieces between separators `/`. -/
def splitSep : Str → List Str
  | [] => [[]]
  | c :: cs =>
    if c = '/' then [] :: splitSep cs
    else
      match splitSep cs with
      | [] => [[c]]
      | h :: t => (c :: h) :: t

/-- The elements joined with a separator between neighbours. -/
def joinSep : List Str → Str
  | [] => []
  | [s] => s
  | s :: t :: r => s ++ '/' :: joinSep (t :: r)

/-- One round of the loop of `filepath.Clean` on one path element.  `out` holds
the elements written so far and `dotdot` how many of them are a leading `..`
that must stay (the loop's `dotdot` index). -/
def cleanStep (rooted : Bool) (acc : List Str × Nat) (seg : Str) : List Str × Nat :=
  if seg = [] then acc
  else if seg = ['.'] then acc
  else if seg = ['.', '.'] then
    if acc.2 < acc.1.length then (acc.1.dropLast, acc.2)
    else if rooted then acc
    else (acc.1 ++ [seg], acc.1.length + 1)
  else (acc.1 ++ [seg], acc.2)

/-- Go `filepath.Clean`: empty elements and `.` are dropped, `..` removes the
element before it (at the root it is dropped, in a relative path a leading
`..` stays), and the empty result is `.`. -/
def Clean (path : Str) : Str :=
  match path with
  | [] => ['.']
  | c :: _ =>
    let rooted : Bool := c = '/'
    let out := ((splitSep path).foldl (cleanStep rooted) ([], 0)).1
    if rooted then '/' :: joinSep out
    else if out = [] then ['.'] else joinSep out

/-- Go `filepath.Join`: leading empty elements are ignored, the rest is joined
with separators and cleaned; all elements empty gives the empty string. -/
def Join : List Str → Str
  | [] => []
  | e :: es => if e = [] then Join es else Clean (joinSep (e :: es))

/-! ## `zk` constants -/

/-- Go `zk.PermRead`, `1 << 0`. -/
def PermRead : Nat := 1

/-- Go `zk.PermWrite`, `1 << 1`. -/
def PermWrite : Nat := 2

/-- Go `zk.PermCreate`, `1 << 2`. -/
def PermCreate : Nat := 4

/-- Go `zk.PermDelete`, `1 << 3`. -/
def PermDelete : Nat := 8

/-- Go `zk.PermAdmin`, `1 << 4`. -/
def PermAdmin : Nat := 16

/-- Go `zk.PermAll`, `0x1f`. -/
def PermAll : Nat := 31

/-- Go `zk.ACL`. -/
structure ACL where
  perms : Nat
  scheme : Str
  id : Str
  deriving DecidableEq, Repr

/-- Go `zk.WorldACL`. -/
def WorldACL (perms : Nat) : List ACL :=
  [{ perms := perms, scheme := "world".toList, id := "anyone".toList }]

/-! ## Command-line context -/

/-- What the commands read from `*cli.Context`: the positional arguments and
the flags. -/
structure Context where
  args : List Str
  version : Int
  auto : Bool
  recursive : Bool
  follow : Bool
  world : Bool
  acl : List Str

/-- Go `context.Args().Get(n)`: the empty string when there is no such argument. -/
def Context.argsGet (context : Context) (n : Nat) : Str :=
  context.args.getD n []

/-- Go `context.Args().First()`. -/
def Context.argsFirst (context : Context) : Str :=
  context.argsGet 0

/-- Go `int32(context.Int("version"))`. -/
def toInt32 (n : Int) : Int :=
  (n + 2147483648) % 4294967296 - 2147483648

/-! ## `main.go`: helpers -/

/-- The table `permMap`; a name that is not a key gives the zero value. -/
def permMap (perm : Str) : Nat :=
  if perm = "all".toList then PermAll
  else if perm = "write".toList then PermWrite
  else if perm = "read".toList then PermRead
  else if perm = "create".toList then PermCreate
  else if perm = "delete".toList then PermDelete
  else if perm = "admin".toList then PermAdmin
  else 0

/-- The source's `getPath`: the first argument joined against `/`. -/
def getPath (context : Context) : Str :=
  Join ["/".toList, context.argsGet 0]

/-- The loop of `getACL`: the flags of the names OR-ed into `aclFlag`.  The
flags are below 32, so the `int32` never overflows. -/
def aclLoop (aclFlag : Nat) : List Str → Nat
  | [] => aclFlag
  | perm :: rest => aclLoop (aclFlag ||| permMap perm) rest

/-- The source's `getACL`. -/
def getACL (context : Context) : List ACL :=
  let aclFlag := aclLoop 0 context.acl
  let aclFlag := if aclFlag = 0 then PermAll else aclFlag
  WorldACL aclFlag

/-! ## The session handle -/

/-- The errors of a session call (`zk.ErrNoNode`, `zk.ErrBadVersion`, ...). -/
inductive ZkError
  | noNode
  | badVersion
  | notEmpty
  | nodeExists
  | badArguments
  | other (code : Nat)
  deriving DecidableEq, Repr

/-- Go `error`: `nil` is `none`. -/
abbrev GoError := Option ZkError

/-- Go `zk.Stat`, of which the code reads `Version`. -/
structure Stat where
  version : Int
  deriving DecidableEq, Repr

/-- Go `zk.EventType`. -/
inductive EventType
  | nodeCreated
  | nodeDeleted
  | nodeDataChanged
  | nodeChildrenChanged
  | session
  | notWatching
  deriving DecidableEq, Repr

/-- Go `EventType.String`. -/
def EventType.String : EventType → Str
  | .nodeCreated => "EventNodeCreated".toList
  | .nodeDeleted => "EventNodeDeleted".toList
  | .nodeDataChanged => "EventNodeDataChanged".toList
  | .nodeChildrenChanged => "EventNodeChildrenChanged".toList
  | .session => "EventSession".toList
  | .notWatching => "EventNotWatching".toList

/-- Go `zk.Event`, of which the code reads `Type`, `Path` and `Err`. -/
structure Event where
  type : EventType
  path : Str
  err : GoError
  deriving DecidableEq, Repr

/-- The node operations of `*zk.Conn` used by the code, over a session state
`σ`.  Nothing is assumed about them. -/
structure NodeOps (σ : Type) where
  create : Str → Str → Int → List ACL → σ → Except ZkError Str × σ
  get : Str → σ → Except ZkError (Str × Stat) × σ
  set : Str → Str → Int → σ → Except ZkError Stat × σ
  children : Str → σ → Except ZkError (List Str × Stat) × σ
  delete : Str → Int → σ → GoError × σ

/-- Go `Conn.GetW`.  The event channel is the finite list of the events it
delivers before it is closed. -/
structure WatchOps (σ : Type) where
  getW : Str → σ → Except ZkError (Str × Stat × List Event) × σ

/-- The whole session handle. -/
structure Session (σ : Type) extends NodeOps σ, WatchOps σ

/-- A session call together with what it returned. -/
inductive Call
  | create (path data : Str) (flags : Int) (acl : List ACL) (res : Except ZkError Str)
  | get (path : Str) (res : Except ZkError (Str × Stat))
  | set (path data : Str) (version : Int) (res : Except ZkError Stat)
  | children (path : Str) (res : Except ZkError (List Str × Stat))
  | delete (path : Str) (version : Int) (res : GoError)
  | getW (path : Str) (res : Except ZkError (Str × Stat × List Event))

/-- The error of an `Except` result, `none` when it is a value. -/
def errOf {α : Type} : Except ZkError α → GoError
  | .error err => some err
  | .ok _ => none

/-- The error a call returned, `none` when it succeeded. -/
def Call.err : Call → GoError
  | .create _ _ _ _ res => errOf res
  | .get _ res => errOf res
  | .set _ _ _ res => errOf res
  | .children _ res => errOf res
  | .delete _ _ res => res
  | .getW _ res => errOf res

/-- What the process does, in order.  A session call records the session state
it was issued in. -/
inductive Effect (σ : Type)
  | call (pre : σ) (c : Call)
  | logError (err : GoError)
  | logWarning (err : GoError)
  | logDebug (version : Int)
  | print (s : Str)
  | close
  | exit (code : Nat)

/-- The error of a failed session call; `none` for every other effect. -/
def Effect.failed {σ : Type} : Effect σ → GoError
  | .call _ c => c.err
  | _ => none

/-- Whether the effect is a session call. -/
def Effect.isCall {σ : Type} : Effect σ → Bool
  | .call _ _ => true
  | _ => false

/-- Whether the effect is `zookeeper.Close()`. -/
def Effect.isClose {σ : Type} : Effect σ → Bool
  | .close => true
  | _ => false

/-- Whether the effect is `os.Exit`. -/
def Effect.isExit {σ : Type} : Effect σ → Bool
  | .exit _ => true
  | _ => false

/-- The result of running a piece of code from a session state: its value, the
session state afterwards and the effects it had. -/
abbrev Out (σ α : Type) := α × σ × List (Effect σ)

/-- Sequencing: `o` ran after the effects `tr`. -/
def Out.after {σ α : Type} (tr : List (Effect σ)) (o : Out σ α) : Out σ α :=
  (o.1, o.2.1, tr ++ o.2.2)

def zkCreate {σ : Type} (S : NodeOps σ) (path data : Str) (flags : Int) (acl : List ACL)
    (s : σ) : Out σ (Except ZkError Str) :=
  ((S.create path data flags acl s).1, (S.create path data flags acl s).2,
    [.call s (.create path data flags acl (S.create path data flags acl s).1)])

def zkGet {σ : Type} (S : NodeOps σ) (path : Str) (s : σ) : Out σ (Except ZkError (Str × Stat)) :=
  ((S.get path s).1, (S.get path s).2, [.call s (.get path (S.get path s).1)])

def zkSet {σ : Type} (S : NodeOps σ) (path data : Str) (version : Int) (s : σ) :
    Out σ (Except ZkError Stat) :=
  ((S.set path data version s).1, (S.set path data version s).2,
    [.call s (.set path data version (S.set path data version s).1)])

def zkChildren {σ : Type} (S : NodeOps σ) (path : Str) (s : σ) :
    Out σ (Except ZkError (List Str × Stat)) :=
  ((S.children path s).1, (S.children path s).2, [.call s (.children path (S.children path s).1)])

def zkDelete {σ : Type} (S : NodeOps σ) (path : Str) (version : Int) (s : σ) : Out σ GoError :=
  ((S.delete path version s).1, (S.delete path version s).2,
    [.call s (.delete path version (S.delete path version s).1)])

def zkGetW {σ : Type} (S : WatchOps σ) (path : Str) (s : σ) :
    Out σ (Except ZkError (Str × Stat × List Event)) :=
  ((S.getW path s).1, (S.getW path s).2, [.call s (.getW path (S.getW path s).1)])

/-! ## `main.go`: the version resolver and the recursive deleter -/

/-- The source's `getVersion`. -/
def getVersion {σ : Type} (S : NodeOps σ) (path : Str) (s : σ) : Out σ (Int × GoError) :=
  match zkGet S path s with
  | (.error err, s1, tr) => ((-1, some err), s1, tr)
  | (.ok (_, st), s1, tr) => ((st.version, none), s1, tr)

/-- The loop `for _, k := range keys` of `deleteRecursive`, with the recursive
call as a parameter.  `some (some err)` is the early `return err`, `some none`
the end of the loop, `none` a recursive call that ran out of fuel. -/
def deleteKeys {σ : Type} (self : Str → σ → Out σ (Option GoError)) (path : Str) :
    List Str → σ → Out σ (Option GoError)
  | [], s => (some none, s, [])
  | k :: keys, s =>
    match self (Join [path, k]) s with
    | (some none, s1, tr) => (deleteKeys self path keys s1).after tr
    | r => r

/-- The end of `deleteRecursive`, after the loop: `getVersion`, then `Delete`
with that version. -/
def deleteSelf {σ : Type} (S : NodeOps σ) (path : Str) (s : σ) : Out σ (Option GoError) :=
  match getVersion S path s with
  | ((_, some err), s1, tr) => (some (some err), s1, tr)
  | ((version, none), s1, tr) =>
    (some (zkDelete S path version s1).1, (zkDelete S path version s1).2.1,
      tr ++ (zkDelete S path version s1).2.2)

/-- The source's `deleteRecursive`.  The result is `none` when the fuel ran
out, else `some` of the returned `error`. -/
def deleteRecursive {σ : Type} (S : NodeOps σ) : Nat → Str → σ → Out σ (Option GoError)
  | 0, _, s => (none, s, [])
  | fuel + 1, path, s =>
    match zkChildren S path s with
    | (.error err, s1, tr1) => (some (some err), s1, tr1)
    | (.ok (keys, _), s1, tr1) =>
      match deleteKeys (deleteRecursive S fuel) path keys s1 with
      | (some none, s2, tr2) => (deleteSelf S path s2).after (tr1 ++ tr2)
      | (r, s2, tr2) => (r, s2, tr1 ++ tr2)

/-! ## `main.go`: the commands -/

/-- How an action ends: it returns to `app.Run`, or the process exits. -/
inductive Status
  | returned
  | exited (code : Nat)
  deriving DecidableEq, Repr

/-- The error path of every command:
`logrus.Error(err); zookeeper.Close(); os.Exit(1)`. -/
def fatal {σ : Type} (err : ZkError) (s : σ) : Out σ Status :=
  (.exited 1, s, [.logError (some err), .close, .exit 1])

/-- The source's `createCommand.Action`. -/
def createAction {σ : Type} (S : NodeOps σ) (context : Context) (s : σ) : Out σ Status :=
  match zkCreate S (getPath context) (context.argsGet 1) (toInt32 context.version)
      (getACL context) s with
  | (.error err, s1, tr) => (fatal err s1).after tr
  | (.ok _, s1, tr) => (.returned, s1, tr)

/-- The end of `setCommand.Action`: the `Set` call and its error path. -/
def setWrite {σ : Type} (S : NodeOps σ) (context : Context) (path : Str) (version : Int)
    (s : σ) : Out σ Status :=
  match zkSet S path (context.argsGet 1) version s with
  | (.error err, s1, tr) => (fatal err s1).after tr
  | (.ok _, s1, tr) => (.returned, s1, tr)

/-- The source's `setCommand.Action`. -/
def setAction {σ : Type} (S : NodeOps σ) (context : Context) (s : σ) : Out σ Status :=
  let path := getPath context
  let version := toInt32 context.version
  if context.auto then
    match zkGet S path s with
    | (.error err, s1, tr) => (fatal err s1).after tr
    | (.ok (_, st), s1, tr) => (setWrite S context path st.version s1).after tr
  else setWrite S context path version s

/-- The loop `for _, c := range children` of `lsCommand.Action`. -/
def lsPrint {σ : Type} (path : Str) (children : List Str) : List (Effect σ) :=
  children.map (fun c => .print (Join [path, c] ++ ['\n']))

/-- The source's `lsCommand.Action`. -/
def lsAction {σ : Type} (S : NodeOps σ) (context : Context) (s : σ) : Out σ Status :=
  let path := getPath context
  match zkChildren S path s with
  | (.error err, s1, tr) => (fatal err s1).after tr
  | (.ok (children, _), s1, tr) => (.returned, s1, tr ++ lsPrint path children)

/-- The source's `getCommand.Action`. -/
def getAction {σ : Type} (S : NodeOps σ) (context : Context) (s : σ) : Out σ Status :=
  match zkGet S (getPath context) s with
  | (.error err, s1, tr) => (fatal err s1).after tr
  | (.ok (r, st), s1, tr) => (.returned, s1, tr ++ [.logDebug st.version, .print r])

/-- The end of `deleteCommand.Action`: the `Delete` call and its error path. -/
def deleteWrite {σ : Type} (S : NodeOps σ) (path : Str) (version : Int) (s : σ) : Out σ Status :=
  match zkDelete S path version s with
  | (some err, s1, tr) => (fatal err s1).after tr
  | (none, s1, tr) => (.returned, s1, tr)

/-- An action that needs no fuel, seen as one that does. -/
def Out.done {σ : Type} (o : Out σ Status) : Out σ (Option Status) :=
  (some o.1, o.2.1, o.2.2)

/-- The source's `deleteCommand.Action`; `none` when `deleteRecursive` ran out
of fuel. -/
def deleteAction {σ : Type} (S : NodeOps σ) (fuel : Nat) (context : Context) (s : σ) :
    Out σ (Option Status) :=
  let path := getPath context
  let version := toInt32 context.version
  if context.recursive then
    match deleteRecursive S fuel path s with
    | (none, s1, tr) => (none, s1, tr)
    | (some (some err), s1, tr) => ((fatal err s1).after tr).done
    | (some none, s1, tr) => (some .returned, s1, tr)
  else if context.auto then
    match getVersion S path s with
    | ((_, some err), s1, tr) => ((fatal err s1).after tr).done
    | ((version, none), s1, tr) => ((deleteWrite S path version s1).after tr).done
  else (deleteWrite S path version s).done

/-- The loop `for e := range ev` of `watchCommand.Action`.  `err` is the
variable `err` of the enclosing function, the error of the `GetW` call. -/
def watchEvents {σ : Type} (err : GoError) : List Event → List (Effect σ)
  | [] => []
  | e :: ev =>
    if e.err ≠ none then .logWarning err :: watchEvents err ev
    else .print (e.type.String ++ ": ".toList ++ e.path ++ ['\n']) :: watchEvents err ev

/-- The source's `watchCommand.Action`; one unit of fuel per pass through the
label `forever`, `none` when the fuel ran out. -/
def watchAction {σ : Type} (S : WatchOps σ) : Nat → Context → σ → Out σ (Option Status)
  | 0, _, s => (none, s, [])
  | fuel + 1, context, s =>
    match zkGetW S context.argsFirst s with
    | (.error err, s1, tr) => ((fatal err s1).after tr).done
    | (.ok (_, _, ev), s1, tr) =>
      if context.follow then
        (watchAction S fuel context s1).after (tr ++ watchEvents none ev)
      else (some .returned, s1, tr ++ watchEvents none ev)

/-- The commands of `app.Commands`. -/
inductive Command
  | create
  | delete
  | get
  | ls
  | set
  | watch
  deriving DecidableEq, Repr

/-- The action of a command. -/
def Command.action {σ : Type} (S : Session σ) (fuel : Nat) (context : Context) (s : σ) :
    Command → Out σ (Option Status)
  | .create => (createAction S.toNodeOps context s).done
  | .delete => deleteAction S.toNodeOps fuel context s
  | .get => (getAction S.toNodeOps context s).done
  | .ls => (lsAction S.toNodeOps context s).done
  | .set => (setAction S.toNodeOps context s).done
  | .watch => watchAction S.toWatchOps fuel context s

/-- A command under `app.Run` on a connected session: the action, then
`app.After` (which closes the session) unless the action left through
`os.Exit`.  The value is the exit status of the process, `none` when the fuel
ran out. -/
def run {σ : Type} (S : Session σ) (cmd : Command) (fuel : Nat) (context : Context) (s : σ) :
    Out σ (Option Nat) :=
  match cmd.action S fuel context s with
  | (none, s1, tr) => (none, s1, tr)
  | (some (.exited code), s1, tr) => (some code, s1, tr)
  | (some .returned, s1, tr) => (some 0, s1, tr ++ [.close])

/-! ## The finite-tree model of the service -/

/-- A node of the tree: the names on the way from the root, the value and the
version. -/
structure ZNode where
  path : List Str
  data : Str
  version : Int
  deriving DecidableEq, Repr

/-- The state of the service: the nodes that exist. -/
abbrev Tree := List ZNode

/-- A child name is a single path element: not empty, no separator, not `.`
and not `..`. -/
def goodName (k : Str) : Prop :=
  k ≠ [] ∧ '/' ∉ k ∧ k ≠ ['.'] ∧ k ≠ ['.', '.']

instance (k : Str) : Decidable (goodName k) := by
  unfold goodName; infer_instance

/-- The path string of a node: `/` for the root, else `/a/b/c`. -/
def render (segs : List Str) : Str :=
  '/' :: joinSep segs

/-- The node a path string names; the service accepts `/` and `/a/b/c` with
good names only. -/
def parsePath : Str → Option (List Str)
  | [] => none
  | c :: rest =>
    if c = '/' then
      if rest = [] then some []
      else if ∀ k ∈ splitSep rest, goodName k then some (splitSep rest) else none
    else none

/-- The node at `segs`, if it exists. -/
def Tree.node? (t : Tree) (segs : List Str) : Option ZNode :=
  t.find? (fun n => n.path = segs)

/-- The paths of the nodes of a tree. -/
def Tree.paths (t : Tree) : List (List Str) :=
  t.map (fun n => n.path)

/-- The name under which the node at `path` is a child of `segs`, if it is
one. -/
def childName (segs path : List Str) : Option Str :=
  if path.dropLast = segs then path.getLast? else none

/-- The names of the children of `segs`, in the order of the state. -/
def Tree.childNames (t : Tree) (segs : List Str) : List Str :=
  t.paths.filterMap (childName segs)

/-- The tree without the node at `segs`. -/
def Tree.remove (t : Tree) (segs : List Str) : Tree :=
  t.filter (fun n => n.path ≠ segs)

/-- The tree with the value at `segs` replaced and its version incremented. -/
def Tree.write (t : Tree) (segs : List Str) (data : Str) : Tree :=
  t.map (fun n => if n.path = segs then { n with data := data, version := n.version + 1 } else n)

/-- The service on a finite tree of versioned nodes with no other client:
`Children` and `Get` fail iff the node does not exist; `Delete` succeeds iff
the node exists, has the given version and has no children; `Set` succeeds iff
the node exists and has the given version. -/
def treeOps : NodeOps Tree where
  create path data _ _ t :=
    match parsePath path with
    | none => (.error .badArguments, t)
    | some segs =>
      if (t.node? segs).isSome then (.error .nodeExists, t)
      else if segs ≠ [] ∧ (t.node? segs.dropLast).isNone then (.error .noNode, t)
      else (.ok path, t ++ [{ path := segs, data := data, version := 0 }])
  get path t :=
    match parsePath path with
    | none => (.error .badArguments, t)
    | some segs =>
      match t.node? segs with
      | none => (.error .noNode, t)
      | some n => (.ok (n.data, { version := n.version }), t)
  set path data version t :=
    match parsePath path with
    | none => (.error .badArguments, t)
    | some segs =>
      match t.node? segs with
      | none => (.error .noNode, t)
      | some n =>
        if n.version ≠ version then (.error .badVersion, t)
        else (.ok { version := n.version + 1 }, t.write segs data)
  children path t :=
    match parsePath path with
    | none => (.error .badArguments, t)
    | some segs =>
      match t.node? segs with
      | none => (.error .noNode, t)
      | some n => (.ok (t.childNames segs, { version := n.version }), t)
  delete path version t :=
    match parsePath path with
    | none => (some .badArguments, t)
    | some segs =>
      match t.node? segs with
      | none => (some .noNode, t)
      | some n =>
        if n.version ≠ version then (some .badVersion, t)
        else if t.childNames segs ≠ [] then (some .notEmpty, t)
        else (none, t.remove segs)

/-- A well-formed tree: no path twice, every name good, and the parent of
every node but the root exists. -/
def Tree.WF (t : Tree) : Prop :=
  t.paths.Nodup ∧ ∀ n ∈ t, (∀ k ∈ n.path, goodName k) ∧ (n.path ≠ [] → n.path.dropLast ∈ t.paths)

instance (t : Tree) : Decidable t.WF := by
  unfold Tree.WF; infer_instance

/-- The tree without the subtree of `segs`. -/
def Tree.prune (t : Tree) (segs : List Str) : Tree :=
  t.filter (fun n => ¬ segs <+: n.path)

/-- A bound on the length of the paths of a tree. -/
def Tree.depth : Tree → Nat
  | [] => 0
  | n :: t => max n.path.length (Tree.depth t)

/-- The nodes of the subtree of `segs` in post-order: for each child in listing
order its own subtree, then the node. -/
def postOrder (t : Tree) : Nat → List Str → List (List Str)
  | 0, _ => []
  | fuel + 1, segs =>
    (t.childNames segs).flatMap (fun k => postOrder t fuel (segs ++ [k])) ++ [segs]

/-- The paths of the `Delete` calls of a trace, in order. -/
def deletedPaths {σ : Type} : List (Effect σ) → List Str
  | [] => []
  | .call _ (.delete path _ _) :: tr => path :: deletedPaths tr
  | _ :: tr => deletedPaths tr

/-- The paths of the `GetW` calls of a trace, in order. -/
def watchedPaths {σ : Type} : List (Effect σ) → List Str
  | [] => []
  | .call _ (.getW path _) :: tr => path :: watchedPaths tr
  | _ :: tr => watchedPaths tr

/-- A service in which another client acts right after every `Get`: `ext` is
applied to the state the `Get` leaves. -/
def afterGet {σ : Type} (S : NodeOps σ) (ext : σ → σ) : NodeOps σ :=
  { S with get := fun path s => ((S.get path s).1, ext (S.get path s).2) }

/-- A session given by the sequence of its `GetW` results; the state is the
number of `GetW` calls made so far. -/
def scripted (script : Nat → Except ZkError (Str × Stat × List Event)) : WatchOps Nat where
  getW _ n := (script n, n + 1)

/-- A small tree: `/`, `/a`, `/a/b`, `/a/c`, `/d`. -/
def sampleTree : Tree :=
  [ { path := [], data := [], version := 0 },
    { path := ["a".toList], data := "x".toList, version := 3 },
    { path := ["a".toList, "b".toList], data := [], version := 1 },
    { path := ["a".toList, "c".toList], data := [], version := 0 },
    { path := ["d".toList], data := [], version := 7 } ]

/-- A context with the given arguments and no flag set. -/
def plainContext (args : List Str) : Context :=
  { args := args, version := 0, auto := false, recursive := false, follow := false,
    world := false, acl := [] }

/-- The keys of `permMap`. -/
def permNames : List Str :=
  ["all".toList, "write".toList, "read".toList, "create".toList, "delete".toList,
    "admin".toList]

/-- The bitwise OR of the flags the names stand for. -/
def orFlags : List Str → Nat
  | [] => 0
  | perm :: rest => permMap perm ||| orFlags rest

/-- The tree without the subtrees of the children `keys` of `segs`. -/
def Tree.pruneAll (t : Tree) (segs : List Str) : List Str → Tree
  | [] => t
  | k :: keys => Tree.pruneAll (t.prune (segs ++ [k])) segs keys

/-! ## Predicates on traces -/

/-- Every `Delete` of the trace comes right after a successful `Get` on the
same path and carries the version that `Get` returned. -/
def Guarded {σ : Type} (tr : List (Effect σ)) : Prop :=
  ∀ pre post s q v r, tr = pre ++ .call s (.delete q v r) :: post →
    ∃ pre' s' d, pre = pre' ++ [.call s' (.get q (.ok (d, { version := v })))]

/-- Every `Delete` of the trace succeeded and was issued in a state of the tree
in which its node had no children. -/
def CleanDeletes (tr : List (Effect Tree)) : Prop :=
  ∀ s q v r, .call s (.delete q v r) ∈ tr →
    r = none ∧ ∃ segs, parsePath q = some segs ∧ s.childNames segs = []

/-- No session call of the trace failed. -/
def NoFail {σ : Type} (tr : List (Effect σ)) : Prop :=
  ∀ e ∈ tr, e.failed = none

/-- The trace has neither `Close` nor `os.Exit`. -/
def Open {σ : Type} (tr : List (Effect σ)) : Prop :=
  ∀ e ∈ tr, e.isClose = false ∧ e.isExit = false

/-- Fail-fast, for code that returns an `error`: the trace is session calls
only, and either none of them failed and the result is not an error, or the
last one failed, none before it did, and the result is its error. -/
def FailFast {σ : Type} (o : Out σ (Option GoError)) : Prop :=
  (∀ e ∈ o.2.2, e.isCall = true) ∧
  ((NoFail o.2.2 ∧ (o.1 = none ∨ o.1 = some none)) ∨
    ∃ pre s c err, o.2.2 = pre ++ [.call s c] ∧ NoFail pre ∧ c.err = some err ∧
      o.1 = some (some err))

/-- Fail-fast, for an action: either no session call failed, the session is
neither closed nor the process left, or the last session call failed, none
before it did, and it is followed by exactly the log line of its error,
`Close` and `os.Exit(1)`. -/
def FailFatal {σ : Type} (o : Out σ (Option Status)) : Prop :=
  (NoFail o.2.2 ∧ Open o.2.2 ∧ (o.1 = none ∨ o.1 = some .returned)) ∨
    ∃ pre s c err, o.2.2 = pre ++ [.call s c, .logError (some err), .close, .exit 1] ∧
      NoFail pre ∧ Open pre ∧ c.err = some err ∧ o.1 = some (.exited 1)


/-- The tree service with watches that deliver no event before the channel is
closed. -/
def quietSession : Session Tree :=
  { treeOps with
    getW := fun path t =>
      match treeOps.get path t with
      | (.error err, t1) => (.error err, t1)
      | (.ok (d, st), t1) => (.ok (d, st, []), t1) }

/-- A script of `GetW` results: one channel that delivers an event with an
error and then a data-changed event, after which every `GetW` fails. -/
def sampleScript : Nat → Except ZkError (Str × Stat × List Event)
  | 0 => .ok ([], { version := 0 },
      [ { type := .notWatching, path := "/a".toList, err := some (.other 7) },
        { type := .nodeDataChanged, path := "/a".toList, err := none } ])
  | _ => .error (.other 1)


/-- The tree service with another client that writes `/a/c` right after every
`Get`. -/
def racingOps : NodeOps Tree :=
  afterGet treeOps (fun t => t.write ["a".toList, "c".toList] [])


/-! ## Theorems -/

/-! ### `getACL` -/

theorem permMap_lt (perm : Str) : permMap perm < 32 := by
  unfold permMap PermAll PermWrite PermRead PermCreate PermDelete PermAdmin
  repeat' split
  all_goals omega

theorem permMap_pos_of_mem {perm : Str} (h : perm ∈ permNames) : 0 < permMap perm := by
  simp only [permNames, List.mem_cons, List.mem_singleton, List.not_mem_nil, or_false] at h
  rcases h with h | h | h | h | h | h <;> subst h <;> decide

theorem permMap_eq_zero_of_not_mem {perm : Str} (h : perm ∉ permNames) : permMap perm = 0 := by
  simp only [permNames, List.mem_cons, List.mem_singleton, List.not_mem_nil, or_false,
    not_or] at h
  obtain ⟨h1, h2, h3, h4, h5, h6⟩ := h
  unfold permMap
  rw [if_neg h1, if_neg h2, if_neg h3, if_neg h4, if_neg h5, if_neg h6]

theorem aclLoop_eq (aclFlag : Nat) (acl : List Str) :
    aclLoop aclFlag acl = aclFlag ||| orFlags acl := by
  induction acl generalizing aclFlag with
  | nil => simp [aclLoop, orFlags]
  | cons perm rest ih => simp [aclLoop, orFlags, ih, Nat.lor_assoc]

theorem orFlags_lt (acl : List Str) : orFlags acl < 32 := by
  induction acl with
  | nil => simp [orFlags]
  | cons perm rest ih =>
    have h := permMap_lt perm
    have : permMap perm ||| orFlags rest < 2 ^ 5 := Nat.or_lt_two_pow h ih
    simpa [orFlags] using this

theorem orFlags_perm {l l' : List Str} (h : l.Perm l') : orFlags l = orFlags l' := by
  induction h with
  | nil => rfl
  | cons x _ ih => simp [orFlags, ih]
  | swap x y l => simp only [orFlags, ← Nat.lor_assoc, Nat.lor_comm (permMap y)]
  | trans _ _ ih1 ih2 => exact ih1.trans ih2

theorem lor_pos {a b : Nat} (ha : a < 32) (hb : b < 32) (h : 0 < a) : 0 < a ||| b := by
  have : ∀ x y : Fin 32, 0 < x.val → 0 < x.val ||| y.val := by decide
  exact this ⟨a, ha⟩ ⟨b, hb⟩ h

theorem orFlags_pos {acl : List Str} (hne : acl ≠ []) (h : ∀ perm ∈ acl, perm ∈ permNames) :
    0 < orFlags acl := by
  cases acl with
  | nil => exact absurd rfl hne
  | cons perm rest =>
    have hp := permMap_pos_of_mem (h perm (List.mem_cons_self _ _))
    exact lor_pos (permMap_lt perm) (orFlags_lt rest) hp

theorem orFlags_filter (acl : List Str) :
    orFlags (acl.filter (fun perm => perm ∈ permNames)) = orFlags acl := by
  induction acl with
  | nil => rfl
  | cons perm rest ih =>
    by_cases hp : perm ∈ permNames
    · simp [List.filter_cons, hp, orFlags, ih]
    · simp [List.filter_cons, hp, orFlags, ih, permMap_eq_zero_of_not_mem hp]

theorem lor_31 (x : Nat) (h : x < 32) : 31 ||| x = 31 := by
  have : ∀ y : Fin 32, 31 ||| y.val = 31 := by decide
  exact this ⟨x, h⟩

theorem orFlags_all {acl : List Str} (h : "all".toList ∈ acl) : orFlags acl = 31 := by
  induction acl with
  | nil => simp at h
  | cons perm rest ih =>
    rcases List.mem_cons.mp h with h | h
    · have hp : permMap perm = 31 := by rw [← h]; decide
      simp only [orFlags, hp]
      exact lor_31 _ (orFlags_lt rest)
    · simp only [orFlags, ih h]
      rw [Nat.lor_comm]
      exact lor_31 _ (permMap_lt perm)

theorem getACL_eq (context : Context) :
    getACL context =
      WorldACL (if orFlags context.acl = 0 then PermAll else orFlags context.acl) := by
  simp [getACL, aclLoop_eq]

/-- C4: the bitmask of `getACL` does not depend on the order of the `--acl`
values; for a non-empty list of names of the table it is the OR of the named
flags; for the empty list it is `PermAll`. -/
theorem getACL_order_independent (context context' : Context) :
    (context.acl.Perm context'.acl → getACL context = getACL context') ∧
    (context.acl ≠ [] → (∀ perm ∈ context.acl, perm ∈ permNames) →
      getACL context = WorldACL (orFlags context.acl)) ∧
    (context.acl = [] → getACL context = WorldACL PermAll) := by
  refine ⟨fun h => ?_, fun hne h => ?_, fun h => ?_⟩
  · rw [getACL_eq, getACL_eq, orFlags_perm h]
  · have := orFlags_pos hne h
    rw [getACL_eq, if_neg (by omega)]
  · rw [getACL_eq, h]; rfl

/-- C4 at `--acl=read --acl=write` against `--acl=write --acl=read`: both give
`read | write`. -/
theorem getACL_order_independent_witness :
    getACL { plainContext [] with acl := ["read".toList, "write".toList] } =
        getACL { plainContext [] with acl := ["write".toList, "read".toList] } ∧
      getACL { plainContext [] with acl := ["read".toList, "write".toList] } =
        WorldACL (PermRead ||| PermWrite) ∧
      getACL (plainContext []) = WorldACL PermAll :=
  ⟨(getACL_order_independent { plainContext [] with acl := ["read".toList, "write".toList] }
      { plainContext [] with acl := ["write".toList, "read".toList] }).1
      (List.Perm.swap _ _ _),
    (getACL_order_independent { plainContext [] with acl := ["read".toList, "write".toList] }
      (plainContext [])).2.1 (by decide) (by decide),
    (getACL_order_independent (plainContext []) (plainContext [])).2.2 rfl⟩

/-- C10: for every list of `--acl` values the bitmask of `getACL` lies in
`1..PermAll`; names outside the table can be left out without changing it; a
list of unknown names only gives `PermAll`, and so does a list with `all`. -/
theorem getACL_range (context : Context) :
    (∃ perms, getACL context = WorldACL perms ∧ 1 ≤ perms ∧ perms ≤ PermAll) ∧
    getACL context =
      getACL { context with acl := context.acl.filter (fun perm => perm ∈ permNames) } ∧
    ((∀ perm ∈ context.acl, perm ∉ permNames) → getACL context = WorldACL PermAll) ∧
    ("all".toList ∈ context.acl → getACL context = WorldACL PermAll) := by
  refine ⟨?_, ?_, fun h => ?_, fun h => ?_⟩
  · refine ⟨_, getACL_eq context, ?_, ?_⟩
    · split
      · decide
      · omega
    · have := orFlags_lt context.acl
      show _ ≤ 31
      split
      · decide
      · omega
  · rw [getACL_eq, getACL_eq, orFlags_filter]
  · have h0 : orFlags context.acl = 0 := by
      rw [← orFlags_filter, List.filter_eq_nil_iff.mpr (by simpa using h)]; rfl
    rw [getACL_eq, if_pos h0]
  · rw [getACL_eq, orFlags_all h]; rfl

/-- C10 at `--acl=raed` (a misspelt name) and at `--acl=read --acl=all`. -/
theorem getACL_range_witness :
    getACL { plainContext [] with acl := ["raed".toList] } = WorldACL PermAll ∧
      getACL { plainContext [] with acl := ["read".toList, "all".toList] } = WorldACL PermAll :=
  ⟨(getACL_range { plainContext [] with acl := ["raed".toList] }).2.2.1 (by decide),
    (getACL_range { plainContext [] with acl := ["read".toList, "all".toList] }).2.2.2
      (by decide)⟩

/-! ### Fail-fast -/

theorem noFail_nil {σ : Type} : NoFail ([] : List (Effect σ)) := by
  intro e he; simp at he

theorem noFail_append {σ : Type} {a b : List (Effect σ)} (ha : NoFail a) (hb : NoFail b) :
    NoFail (a ++ b) := by
  intro e he
  rcases List.mem_append.mp he with h | h
  · exact ha e h
  · exact hb e h

theorem open_nil {σ : Type} : Open ([] : List (Effect σ)) := by
  intro e he; simp at he

theorem open_append {σ : Type} {a b : List (Effect σ)} (ha : Open a) (hb : Open b) :
    Open (a ++ b) := by
  intro e he
  rcases List.mem_append.mp he with h | h
  · exact ha e h
  · exact hb e h

theorem noFail_single {σ : Type} {e : Effect σ} (h : e.failed = none) : NoFail [e] := by
  intro x hx
  rw [List.mem_singleton.mp hx]; exact h

theorem open_single {σ : Type} {e : Effect σ} (h1 : e.isClose = false) (h2 : e.isExit = false) :
    Open [e] := by
  intro x hx
  rw [List.mem_singleton.mp hx]; exact ⟨h1, h2⟩

theorem open_of_calls {σ : Type} {tr : List (Effect σ)} (h : ∀ e ∈ tr, e.isCall = true) :
    Open tr := by
  intro e he
  have := h e he
  cases e <;> simp_all [Effect.isCall, Effect.isClose, Effect.isExit]

theorem failFast_after {σ : Type} {tr : List (Effect σ)} {o : Out σ (Option GoError)}
    (hc : ∀ e ∈ tr, e.isCall = true) (hn : NoFail tr) (h : FailFast o) :
    FailFast (o.after tr) := by
  obtain ⟨hcalls, h⟩ := h
  refine ⟨?_, ?_⟩
  · intro e he
    rcases List.mem_append.mp he with h' | h'
    · exact hc e h'
    · exact hcalls e h'
  · rcases h with ⟨h1, h2⟩ | ⟨pre, s, c, err, h1, h2, h3, h4⟩
    · exact Or.inl ⟨noFail_append hn h1, h2⟩
    · refine Or.inr ⟨tr ++ pre, s, c, err, ?_, noFail_append hn h2, h3, h4⟩
      show tr ++ o.2.2 = _
      rw [h1, List.append_assoc]

theorem failFast_noFail {σ : Type} {o : Out σ (Option GoError)} (h : FailFast o)
    (hr : o.1 = some none) : NoFail o.2.2 := by
  rcases h.2 with ⟨h1, _⟩ | ⟨_, _, _, _, _, _, _, h4⟩
  · exact h1
  · rw [hr] at h4; cases h4

theorem deleteKeys_failFast {σ : Type} (self : Str → σ → Out σ (Option GoError))
    (hself : ∀ p s, FailFast (self p s)) (path : Str) (keys : List Str) (s : σ) :
    FailFast (deleteKeys self path keys s) := by
  induction keys generalizing s with
  | nil => exact ⟨by simp [deleteKeys], Or.inl ⟨by simp [deleteKeys, noFail_nil], Or.inr rfl⟩⟩
  | cons k keys ih =>
    have h := hself (Join [path, k]) s
    rw [deleteKeys]
    split
    · next s1 tr heq =>
      rw [heq] at h
      exact failFast_after h.1 (failFast_noFail h rfl) (ih s1)
    · exact h

theorem deleteSelf_get_error {σ : Type} (S : NodeOps σ) (path : Str) (s : σ) (err : ZkError)
    (h : (S.get path s).1 = .error err) :
    deleteSelf S path s =
      (some (some err), (S.get path s).2, [.call s (.get path (.error err))]) := by
  simp [deleteSelf, getVersion, zkGet, h]

theorem deleteSelf_get_ok {σ : Type} (S : NodeOps σ) (path : Str) (s : σ) (d : Str) (st : Stat)
    (h : (S.get path s).1 = .ok (d, st)) :
    deleteSelf S path s =
      (some (S.delete path st.version (S.get path s).2).1,
        (S.delete path st.version (S.get path s).2).2,
        [.call s (.get path (.ok (d, st))),
          .call (S.get path s).2
            (.delete path st.version (S.delete path st.version (S.get path s).2).1)]) := by
  simp [deleteSelf, getVersion, zkGet, zkDelete, h]

theorem deleteRecursive_children_error {σ : Type} (S : NodeOps σ) (fuel : Nat) (path : Str)
    (s : σ) (err : ZkError) (h : (S.children path s).1 = .error err) :
    deleteRecursive S (fuel + 1) path s =
      (some (some err), (S.children path s).2, [.call s (.children path (.error err))]) := by
  simp [deleteRecursive, zkChildren, h]

theorem deleteRecursive_loop_done {σ : Type} (S : NodeOps σ) (fuel : Nat) (path : Str)
    (s : σ) (keys : List Str) (st : Stat) (s2 : σ) (tr2 : List (Effect σ))
    (h : (S.children path s).1 = .ok (keys, st))
    (hk : deleteKeys (deleteRecursive S fuel) path keys (S.children path s).2 =
      (some none, s2, tr2)) :
    deleteRecursive S (fuel + 1) path s =
      (deleteSelf S path s2).after (.call s (.children path (.ok (keys, st))) :: tr2) := by
  simp [deleteRecursive, zkChildren, h, hk]

theorem deleteRecursive_loop_left {σ : Type} (S : NodeOps σ) (fuel : Nat) (path : Str)
    (s : σ) (keys : List Str) (st : Stat) (r : Option GoError) (s2 : σ)
    (tr2 : List (Effect σ)) (h : (S.children path s).1 = .ok (keys, st))
    (hk : deleteKeys (deleteRecursive S fuel) path keys (S.children path s).2 = (r, s2, tr2))
    (hr : r ≠ some none) :
    deleteRecursive S (fuel + 1) path s =
      (r, s2, .call s (.children path (.ok (keys, st))) :: tr2) := by
  rw [deleteRecursive]
  simp only [zkChildren, h, hk]
  rfl

theorem deleteSelf_failFast {σ : Type} (S : NodeOps σ) (path : Str) (s : σ) :
    FailFast (deleteSelf S path s) := by
  rcases hg : (S.get path s).1 with err | ⟨d, st⟩
  · rw [deleteSelf_get_error S path s err hg]
    refine ⟨by simp [Effect.isCall], Or.inr ⟨[], s, _, err, rfl, noFail_nil, ?_, rfl⟩⟩
    simp [Call.err, errOf]
  · rw [deleteSelf_get_ok S path s d st hg]
    have hn : NoFail [Effect.call s (Call.get path (Except.ok (d, st)))] :=
      noFail_single (by simp [Effect.failed, Call.err, errOf])
    refine ⟨by simp [Effect.isCall], ?_⟩
    rcases hd : (S.delete path st.version (S.get path s).2).1 with _ | err
    · refine Or.inl ⟨noFail_append hn (noFail_single ?_), Or.inr rfl⟩
      simp [Effect.failed, Call.err]
    · exact Or.inr ⟨_, _, _, err, rfl, hn, by simp [Call.err], rfl⟩

theorem deleteRecursive_failFast {σ : Type} (S : NodeOps σ) (fuel : Nat) (path : Str) (s : σ) :
    FailFast (deleteRecursive S fuel path s) := by
  induction fuel generalizing path s with
  | zero =>
    exact ⟨by simp [deleteRecursive], Or.inl ⟨by simp [deleteRecursive, noFail_nil], Or.inl rfl⟩⟩
  | succ fuel ih =>
    rcases hc : (S.children path s).1 with err | ⟨keys, st⟩
    · rw [deleteRecursive_children_error S fuel path s err hc]
      refine ⟨by simp [Effect.isCall], Or.inr ⟨[], s, _, err, rfl, noFail_nil, ?_, rfl⟩⟩
      simp [Call.err, errOf]
    · have hn : NoFail [Effect.call s (Call.children path (Except.ok (keys, st)))] :=
        noFail_single (by simp [Effect.failed, Call.err, errOf])
      have hcall : ∀ e ∈ [Effect.call s (Call.children path (Except.ok (keys, st)))],
          e.isCall = true := by simp [Effect.isCall]
      have hk := deleteKeys_failFast (deleteRecursive S fuel) ih path keys (S.children path s).2
      rcases hkeq : deleteKeys (deleteRecursive S fuel) path keys (S.children path s).2 with
        ⟨r, s2, tr2⟩
      rw [hkeq] at hk
      by_cases hr : r = some none
      · subst hr
        rw [deleteRecursive_loop_done S fuel path s keys st s2 tr2 hc hkeq]
        have hcall2 : ∀ e ∈ Effect.call s (Call.children path (Except.ok (keys, st))) :: tr2,
            e.isCall = true := by
          intro e he
          rcases List.mem_cons.mp he with h | h
          · rw [h]; rfl
          · exact hk.1 e h
        exact failFast_after hcall2 (noFail_append hn (failFast_noFail hk rfl)) (deleteSelf_failFast S path s2)
      · rw [deleteRecursive_loop_left S fuel path s keys st r s2 tr2 hc hkeq hr]
        exact failFast_after (o := (r, s2, tr2)) hcall hn hk

/-- C3: `deleteRecursive` is fail-fast for every session: a session call of
the run that returned an error is the last effect of the run, no call before
it failed, and the run returns exactly that error; a run that returns an error
ends with the call that returned it.  When the first listing fails, it is the
only call made and its error is returned; in the tree model this is what
happens, with not-found, for a path that does not exist. -/
theorem deleteRecursive_fail_fast {σ : Type} (S : NodeOps σ) (fuel : Nat) (path : Str) (s : σ) :
    (∀ e ∈ (deleteRecursive S fuel path s).2.2, ∀ err, e.failed = some err →
      ∃ pre, (deleteRecursive S fuel path s).2.2 = pre ++ [e] ∧ NoFail pre ∧
        (deleteRecursive S fuel path s).1 = some (some err)) ∧
    (∀ err, (deleteRecursive S fuel path s).1 = some (some err) →
      ∃ pre pre_s c, (deleteRecursive S fuel path s).2.2 = pre ++ [.call pre_s c] ∧
        NoFail pre ∧ c.err = some err) ∧
    (∀ e ∈ (deleteRecursive S fuel path s).2.2, e.isCall = true) ∧
    (∀ err, (S.children path s).1 = .error err →
      deleteRecursive S (fuel + 1) path s =
        (some (some err), (S.children path s).2, [.call s (.children path (.error err))])) ∧
    (∀ (t : Tree) (segs : List Str), parsePath path = some segs → t.node? segs = none →
      deleteRecursive treeOps (fuel + 1) path t =
        (some (some .noNode), t, [.call t (.children path (.error .noNode))])) := by
  have h := deleteRecursive_failFast S fuel path s
  refine ⟨?_, ?_, h.1, ?_, ?_⟩
  · intro e he err hf
    rcases h.2 with ⟨h1, _⟩ | ⟨pre, s', c, err', h1, h2, h3, h4⟩
    · rw [h1 e he] at hf; cases hf
    · rw [h1] at he
      rcases List.mem_append.mp he with h' | h'
      · rw [h2 e h'] at hf; cases hf
      · rw [List.mem_singleton.mp h'] at hf ⊢
        have : err' = err := by
          simp only [Effect.failed, h3, Option.some.injEq] at hf; exact hf
        subst this
        exact ⟨pre, h1, h2, h4⟩
  · intro err hr
    rcases h.2 with ⟨_, h2⟩ | ⟨pre, s', c, err', h1, h2, h3, h4⟩
    · rcases h2 with h2 | h2 <;> rw [h2] at hr <;> cases hr
    · rw [h4] at hr
      cases hr
      exact ⟨pre, s', c, h1, h2, h3⟩
  · intro err hc
    exact deleteRecursive_children_error S fuel path s err hc
  · intro t segs hp hn
    have hc : (treeOps.children path t).1 = .error .noNode := by
      simp [treeOps, hp, hn]
    have hs : (treeOps.children path t).2 = t := by
      simp [treeOps, hp, hn]
    have := deleteRecursive_children_error treeOps fuel path t .noNode hc
    rw [hs] at this
    exact this

/-- C3 on the sample tree.  At `/zz`, which does not exist, the listing fails
with not-found, which is returned, and nothing else is called.  At `/a`, with
another client writing `/a/c` after every `Get`: `/a/b` is deleted, then the
`Delete` of `/a/c` fails with a version mismatch; it is the last call and its
error is returned. -/
theorem deleteRecursive_fail_fast_witness :
    deleteRecursive treeOps 1 "/zz".toList sampleTree =
        (some (some .noNode), sampleTree,
          [.call sampleTree (.children "/zz".toList (.error .noNode))]) ∧
      ∃ pre, (deleteRecursive racingOps 3 "/a".toList sampleTree).2.2 =
          pre ++ [.call
            [ { path := [], data := [], version := 0 },
              { path := ["a".toList], data := "x".toList, version := 3 },
              { path := ["a".toList, "c".toList], data := [], version := 2 },
              { path := ["d".toList], data := [], version := 7 } ]
            (.delete "/a/c".toList 1 (some .badVersion))] ∧
        NoFail pre ∧
        (deleteRecursive racingOps 3 "/a".toList sampleTree).1 = some (some .badVersion) :=
  ⟨(deleteRecursive_fail_fast treeOps 0 "/zz".toList sampleTree).2.2.2.2 sampleTree
      ["zz".toList] (by decide) (by decide),
    (deleteRecursive_fail_fast racingOps 3 "/a".toList sampleTree).1 _
      (List.mem_of_mem_getLast? (show _ ∈ List.getLast? _ from rfl)) .badVersion rfl⟩

/-! ### Fail-fast for the commands -/

theorem failFatal_fatal {σ : Type} {p : List (Effect σ)} (s s1 : σ) (c : Call)
    (err : ZkError) (hn : NoFail p) (ho : Open p) (hc : c.err = some err) :
    FailFatal (σ := σ)
      (some (.exited 1), s1, p ++ [.call s c, .logError (some err), .close, .exit 1]) :=
  Or.inr ⟨p, s, c, err, rfl, hn, ho, hc, rfl⟩

theorem failFatal_returned {σ : Type} {tr : List (Effect σ)} (s1 : σ) (hn : NoFail tr)
    (ho : Open tr) : FailFatal (σ := σ) (some .returned, s1, tr) :=
  Or.inl ⟨hn, ho, Or.inr rfl⟩

theorem failFatal_after {σ : Type} {tr : List (Effect σ)} {o : Out σ (Option Status)}
    (hn : NoFail tr) (ho : Open tr) (h : FailFatal o) : FailFatal (o.after tr) := by
  rcases h with ⟨h1, h2, h3⟩ | ⟨pre, s, c, err, h1, h2, h3, h4, h5⟩
  · exact Or.inl ⟨noFail_append hn h1, open_append ho h2, h3⟩
  · refine Or.inr ⟨tr ++ pre, s, c, err, ?_, noFail_append hn h2, open_append ho h3, h4, h5⟩
    show tr ++ o.2.2 = _
    rw [h1, List.append_assoc]

theorem noFail_call {σ : Type} (s : σ) (c : Call) (h : c.err = none) :
    NoFail [Effect.call s c] :=
  noFail_single (by simpa [Effect.failed] using h)

theorem open_call {σ : Type} (s : σ) (c : Call) : Open [Effect.call s c] :=
  open_single rfl rfl

theorem createAction_failFatal {σ : Type} (S : NodeOps σ) (context : Context) (s : σ) :
    FailFatal (createAction S context s).done := by
  rcases h : (S.create (getPath context) (context.argsGet 1) (toInt32 context.version)
    (getACL context) s).1 with err | v
  · simp only [createAction, zkCreate, h, fatal, Out.after, Out.done]
    exact failFatal_fatal (p := []) s _ _ err noFail_nil open_nil (by simp [Call.err, errOf])
  · simp only [createAction, zkCreate, h, Out.done]
    exact failFatal_returned _ (noFail_call _ _ (by simp [Call.err, errOf])) (open_call _ _)

theorem setWrite_failFatal {σ : Type} (S : NodeOps σ) (context : Context) (path : Str)
    (version : Int) (s : σ) : FailFatal (setWrite S context path version s).done := by
  rcases h : (S.set path (context.argsGet 1) version s).1 with err | v
  · simp only [setWrite, zkSet, h, fatal, Out.after, Out.done]
    exact failFatal_fatal (p := []) s _ _ err noFail_nil open_nil (by simp [Call.err, errOf])
  · simp only [setWrite, zkSet, h, Out.done]
    exact failFatal_returned _ (noFail_call _ _ (by simp [Call.err, errOf])) (open_call _ _)

theorem out_done_after {σ : Type} (tr : List (Effect σ)) (o : Out σ Status) :
    (o.after tr).done = o.done.after tr := rfl

theorem setAction_failFatal {σ : Type} (S : NodeOps σ) (context : Context) (s : σ) :
    FailFatal (setAction S context s).done := by
  unfold setAction
  by_cases ha : context.auto = true
  · simp only [ha, if_true]
    rcases h : (S.get (getPath context) s).1 with err | ⟨d, st⟩
    · simp only [zkGet, h, fatal, Out.after, Out.done]
      exact failFatal_fatal (p := []) s _ _ err noFail_nil open_nil (by simp [Call.err, errOf])
    · simp only [zkGet, h, out_done_after]
      exact failFatal_after (noFail_call _ _ (by simp [Call.err, errOf])) (open_call _ _)
        (setWrite_failFatal S context _ _ _)
  · simp only [ha]
    exact setWrite_failFatal S context _ _ _

theorem lsPrint_noFail {σ : Type} (path : Str) (children : List Str) :
    NoFail (lsPrint (σ := σ) path children) := by
  intro e he
  simp only [lsPrint, List.mem_map] at he
  obtain ⟨c, _, rfl⟩ := he
  rfl

theorem lsPrint_open {σ : Type} (path : Str) (children : List Str) :
    Open (lsPrint (σ := σ) path children) := by
  intro e he
  simp only [lsPrint, List.mem_map] at he
  obtain ⟨c, _, rfl⟩ := he
  exact ⟨rfl, rfl⟩

theorem lsAction_failFatal {σ : Type} (S : NodeOps σ) (context : Context) (s : σ) :
    FailFatal (lsAction S context s).done := by
  rcases h : (S.children (getPath context) s).1 with err | ⟨keys, st⟩
  · simp only [lsAction, zkChildren, h, fatal, Out.after, Out.done]
    exact failFatal_fatal (p := []) s _ _ err noFail_nil open_nil (by simp [Call.err, errOf])
  · simp only [lsAction, zkChildren, h, Out.done]
    exact failFatal_returned _
      (noFail_append (noFail_call _ _ (by simp [Call.err, errOf])) (lsPrint_noFail _ _))
      (open_append (open_call _ _) (lsPrint_open _ _))

theorem getAction_failFatal {σ : Type} (S : NodeOps σ) (context : Context) (s : σ) :
    FailFatal (getAction S context s).done := by
  rcases h : (S.get (getPath context) s).1 with err | ⟨d, st⟩
  · simp only [getAction, zkGet, h, fatal, Out.after, Out.done]
    exact failFatal_fatal (p := []) s _ _ err noFail_nil open_nil (by simp [Call.err, errOf])
  · simp only [getAction, zkGet, h, Out.done]
    refine failFatal_returned _ (noFail_append (noFail_call _ _ (by simp [Call.err, errOf])) ?_)
      (open_append (open_call _ _) ?_)
    · intro e he
      simp only [List.mem_cons, List.mem_singleton, List.not_mem_nil, or_false] at he
      rcases he with rfl | rfl <;> rfl
    · intro e he
      simp only [List.mem_cons, List.mem_singleton, List.not_mem_nil, or_false] at he
      rcases he with rfl | rfl <;> exact ⟨rfl, rfl⟩

theorem deleteWrite_failFatal {σ : Type} (S : NodeOps σ) (path : Str) (version : Int) (s : σ) :
    FailFatal (deleteWrite S path version s).done := by
  rcases h : (S.delete path version s).1 with _ | err
  · simp only [deleteWrite, zkDelete, h, Out.done]
    exact failFatal_returned _ (noFail_call _ _ (by simp [Call.err])) (open_call _ _)
  · simp only [deleteWrite, zkDelete, h, fatal, Out.after, Out.done]
    exact failFatal_fatal (p := []) s _ _ err noFail_nil open_nil (by simp [Call.err])

theorem deleteAction_failFatal {σ : Type} (S : NodeOps σ) (fuel : Nat) (context : Context)
    (s : σ) : FailFatal (deleteAction S fuel context s) := by
  unfold deleteAction
  by_cases hrec : context.recursive = true
  · simp only [hrec, if_true]
    have hff := deleteRecursive_failFast S fuel (getPath context) s
    rcases hd : deleteRecursive S fuel (getPath context) s with ⟨r, s1, tr⟩
    rw [hd] at hff
    rcases hff.2 with ⟨h1, h2⟩ | ⟨pre, s', c, err, h1, h2, h3, h4⟩
    · have ho : Open tr := open_of_calls hff.1
      rcases h2 with h2 | h2
      · simp only [] at h2; subst h2
        exact Or.inl ⟨h1, ho, Or.inl rfl⟩
      · simp only [] at h2; subst h2
        exact Or.inl ⟨h1, ho, Or.inr rfl⟩
    · simp only [] at h1 h4; subst h4; subst h1
      simp only [fatal, Out.after, Out.done, List.append_assoc, List.singleton_append]
      refine failFatal_fatal _ _ _ err h2 (open_of_calls ?_) h3
      intro e he
      exact hff.1 e (List.mem_append_left _ he)
  · simp only [hrec]
    by_cases ha : context.auto = true
    · simp only [ha, if_true]
      rcases h : (S.get (getPath context) s).1 with err | ⟨d, st⟩
      · simp only [getVersion, zkGet, h, fatal, Out.after, Out.done]
        exact failFatal_fatal (p := []) s _ _ err noFail_nil open_nil
          (by simp [Call.err, errOf])
      · simp only [getVersion, zkGet, h, out_done_after]
        exact failFatal_after (noFail_call _ _ (by simp [Call.err, errOf])) (open_call _ _)
          (deleteWrite_failFatal S _ _ _)
    · simp only [ha]
      exact deleteWrite_failFatal S _ _ _

theorem watchEvents_noFail {σ : Type} (err : GoError) (ev : List Event) :
    NoFail (watchEvents (σ := σ) err ev) := by
  induction ev with
  | nil => exact noFail_nil
  | cons e ev ih =>
    rw [watchEvents]
    split
    · exact noFail_append (a := [_]) (noFail_single rfl) ih
    · exact noFail_append (a := [_]) (noFail_single rfl) ih

theorem watchEvents_open {σ : Type} (err : GoError) (ev : List Event) :
    Open (watchEvents (σ := σ) err ev) := by
  induction ev with
  | nil => exact open_nil
  | cons e ev ih =>
    rw [watchEvents]
    split
    · exact open_append (a := [_]) (open_single rfl rfl) ih
    · exact open_append (a := [_]) (open_single rfl rfl) ih

theorem watchAction_failFatal {σ : Type} (S : WatchOps σ) (fuel : Nat) (context : Context)
    (s : σ) : FailFatal (watchAction S fuel context s) := by
  induction fuel generalizing s with
  | zero => exact Or.inl ⟨noFail_nil, open_nil, Or.inl rfl⟩
  | succ fuel ih =>
    rw [watchAction]
    rcases h : (S.getW context.argsFirst s).1 with err | ⟨d, st, ev⟩
    · simp only [zkGetW, h, fatal, Out.after, Out.done]
      exact failFatal_fatal (p := []) s _ _ err noFail_nil open_nil
        (by simp [Call.err, errOf])
    · simp only [zkGetW, h]
      have hn : NoFail ([Effect.call s (Call.getW context.argsFirst (Except.ok (d, st, ev)))] ++
          watchEvents none ev) :=
        noFail_append (noFail_call _ _ (by simp [Call.err, errOf])) (watchEvents_noFail _ _)
      have ho : Open ([Effect.call s (Call.getW context.argsFirst (Except.ok (d, st, ev)))] ++
          watchEvents none ev) :=
        open_append (open_call _ _) (watchEvents_open _ _)
      split
      · exact failFatal_after hn ho (ih _)
      · exact failFatal_returned _ hn ho

theorem action_failFatal {σ : Type} (S : Session σ) (cmd : Command) (fuel : Nat)
    (context : Context) (s : σ) : FailFatal (cmd.action S fuel context s) := by
  cases cmd
  · exact createAction_failFatal _ _ _
  · exact deleteAction_failFatal _ _ _ _
  · exact getAction_failFatal _ _ _
  · exact lsAction_failFatal _ _ _
  · exact setAction_failFatal _ _ _
  · exact watchAction_failFatal _ _ _ _

/-- C9: for each of the six commands and every session, a session call that
returned an error is followed by exactly the log line of that error, `Close`
and `os.Exit(1)`; before it no call failed and the session was not closed; the
exit status is 1. -/
theorem command_fail_fast {σ : Type} (S : Session σ) (cmd : Command) (fuel : Nat)
    (context : Context) (s : σ) (e : Effect σ) (err : ZkError)
    (he : e ∈ (run S cmd fuel context s).2.2) (hf : e.failed = some err) :
    ∃ pre, (run S cmd fuel context s).2.2 = pre ++ [e, .logError (some err), .close, .exit 1] ∧
      NoFail pre ∧ Open pre ∧ e.isCall = true ∧ (run S cmd fuel context s).1 = some 1 := by
  have h := action_failFatal S cmd fuel context s
  unfold run at he ⊢
  rcases ha : cmd.action S fuel context s with ⟨r, s1, tr⟩
  rw [ha] at h he
  rcases h with ⟨h1, h2, h3⟩ | ⟨pre, s', c, err', h1, h2, h3, h4, h5⟩
  · exfalso
    simp only [] at h1 h3
    have hmem : e ∈ tr ∨ e = Effect.close := by
      rcases h3 with h3 | h3 <;> subst h3 <;> simp only [] at he
      · exact Or.inl he
      · rcases List.mem_append.mp he with h' | h'
        · exact Or.inl h'
        · exact Or.inr (List.mem_singleton.mp h')
    rcases hmem with h' | h'
    · rw [h1 e h'] at hf; cases hf
    · rw [h'] at hf; cases hf
  · simp only [] at h1 h5
    subst h5; subst h1
    simp only [] at he ⊢
    rcases List.mem_append.mp he with h' | h'
    · rw [h2 e h'] at hf; cases hf
    · simp only [List.mem_cons, List.mem_singleton, List.not_mem_nil, or_false] at h'
      rcases h' with rfl | rfl | rfl | rfl
      · have : err' = err := by
          simp only [Effect.failed, h4, Option.some.injEq] at hf; exact hf
        subst this
        exact ⟨pre, rfl, h2, h3, rfl, trivial⟩
      · cases hf
      · cases hf
      · cases hf


/-- C9 on the sample tree: `get /zz` fails with not-found, which is logged,
the session is closed and the exit status is 1. -/
theorem command_fail_fast_witness :
    ∃ pre, (run quietSession .get 0 (plainContext ["/zz".toList]) sampleTree).2.2 =
        pre ++ [.call sampleTree (.get "/zz".toList (.error .noNode)),
          .logError (some .noNode), .close, .exit 1] ∧
      NoFail pre ∧ Open pre ∧
      (Effect.call sampleTree (.get "/zz".toList (.error .noNode))).isCall = true ∧
      (run quietSession .get 0 (plainContext ["/zz".toList]) sampleTree).1 = some 1 :=
  command_fail_fast quietSession .get 0 (plainContext ["/zz".toList]) sampleTree
    (.call sampleTree (.get "/zz".toList (.error .noNode))) .noNode
    (List.mem_cons_self _ _) rfl

/-! ### The watch loop -/

/-- C5, at a channel that delivers an event carrying the error `other 7`
followed by a data-changed event on `/a`: the warning logged for the first
event is the `nil` error of the `GetW` call, not the error of the event; the
second event is printed. -/
theorem watch_warning_logs_nil :
    (watchAction (scripted sampleScript) 1 (plainContext ["/a".toList]) 0).2.2 =
      [.call 0 (.getW "/a".toList (sampleScript 0)),
        .logWarning none,
        .print "EventNodeDataChanged: /a\n".toList] := by
  rfl

/-- The watch loop never logs the error of an event: every warning it logs
carries the error variable it was given. -/
theorem watchEvents_warning {σ : Type} (err : GoError) (ev : List Event) (err' : GoError)
    (h : Effect.logWarning err' ∈ watchEvents (σ := σ) err ev) : err' = err := by
  induction ev with
  | nil => simp [watchEvents] at h
  | cons e ev ih =>
    rw [watchEvents] at h
    split at h
    · rcases List.mem_cons.mp h with h | h
      · cases h; rfl
      · exact ih h
    · rcases List.mem_cons.mp h with h | h
      · cases h
      · exact ih h

theorem watchedPaths_append {σ : Type} (a b : List (Effect σ)) :
    watchedPaths (a ++ b) = watchedPaths a ++ watchedPaths b := by
  induction a with
  | nil => rfl
  | cons e a ih =>
    cases e with
    | call pre c => cases c <;> simp [watchedPaths, ih]
    | _ => simp [watchedPaths, ih]

theorem watchedPaths_watchEvents {σ : Type} (err : GoError) (ev : List Event) :
    watchedPaths (watchEvents (σ := σ) err ev) = [] := by
  induction ev with
  | nil => rfl
  | cons e ev ih =>
    rw [watchEvents]
    split <;> simpa [watchedPaths] using ih

theorem watchAction_error {σ : Type} (S : WatchOps σ) (fuel : Nat) (context : Context) (s : σ)
    (err : ZkError) (h : (S.getW context.argsFirst s).1 = .error err) :
    watchAction S (fuel + 1) context s =
      (some (.exited 1), (S.getW context.argsFirst s).2,
        [.call s (.getW context.argsFirst (.error err)), .logError (some err), .close,
          .exit 1]) := by
  rw [watchAction]
  simp only [zkGetW, h, fatal, Out.after, Out.done]
  rfl

theorem watchAction_once {σ : Type} (S : WatchOps σ) (fuel : Nat) (context : Context) (s : σ)
    (v : Str × Stat × List Event) (hf : context.follow = false)
    (h : (S.getW context.argsFirst s).1 = .ok v) :
    watchAction S (fuel + 1) context s =
      (some .returned, (S.getW context.argsFirst s).2,
        .call s (.getW context.argsFirst (.ok v)) :: watchEvents none v.2.2) := by
  obtain ⟨d, st, ev⟩ := v
  rw [watchAction]
  simp only [zkGetW, h, hf]
  rfl

theorem watchAction_again {σ : Type} (S : WatchOps σ) (fuel : Nat) (context : Context) (s : σ)
    (v : Str × Stat × List Event) (hf : context.follow = true)
    (h : (S.getW context.argsFirst s).1 = .ok v) :
    watchAction S (fuel + 1) context s =
      (watchAction S fuel context (S.getW context.argsFirst s).2).after
        (.call s (.getW context.argsFirst (.ok v)) :: watchEvents none v.2.2) := by
  obtain ⟨d, st, ev⟩ := v
  rw [watchAction]
  simp only [zkGetW, h, hf]
  rfl

/-- C8, at `watch a`: the path handed to `GetW` is the argument as typed,
`a`, with no leading separator, while `getPath` gives `/a`. -/
theorem watch_path_not_joined {σ : Type} (S : WatchOps σ) (s : σ) :
    watchedPaths (watchAction S 1 (plainContext ["a".toList]) s).2.2 = ["a".toList] ∧
      getPath (plainContext ["a".toList]) = "/a".toList := by
  refine ⟨?_, by decide⟩
  rcases h : (S.getW (plainContext ["a".toList]).argsFirst s).1 with err | v
  · rw [watchAction_error S 0 _ s err h]
    rfl
  · rw [watchAction_once S 0 _ s v rfl h]
    show _ :: watchedPaths (watchEvents none v.2.2) = _
    rw [watchedPaths_watchEvents]
    rfl

theorem watchAction_follow_running {σ : Type} (S : WatchOps σ) (fuel : Nat) (context : Context)
    (s : σ) (hf : context.follow = true) :
    (watchAction S fuel context s).1 ≠ some .returned := by
  induction fuel generalizing s with
  | zero => simp [watchAction]
  | succ fuel ih =>
    rcases h : (S.getW context.argsFirst s).1 with err | v
    · rw [watchAction_error S fuel context s err h]
      simp
    · rw [watchAction_again S fuel context s v hf h]
      exact ih _

theorem watchAction_mono {σ : Type} (S : WatchOps σ) (fuel m : Nat) (context : Context)
    (s : σ) (hm : fuel ≤ m) :
    (watchAction S fuel context s).2.2 <+: (watchAction S m context s).2.2 := by
  induction fuel generalizing s m with
  | zero => exact List.nil_prefix
  | succ fuel ih =>
    obtain ⟨m, rfl⟩ : ∃ m', m = m' + 1 := ⟨m - 1, by omega⟩
    rcases h : (S.getW context.argsFirst s).1 with err | v
    · rw [watchAction_error S fuel context s err h, watchAction_error S m context s err h]
    · by_cases hf : context.follow = true
      · rw [watchAction_again S fuel context s v hf h, watchAction_again S m context s v hf h]
        exact (List.prefix_append_right_inj _).mpr (ih _ _ (by omega))
      · have hf' : context.follow = false := by simpa using hf
        rw [watchAction_once S fuel context s v hf' h, watchAction_once S m context s v hf' h]

theorem watchAction_stable {σ : Type} (S : WatchOps σ) (fuel m : Nat) (context : Context)
    (s : σ) (hm : fuel ≤ m) (r : Status) (hr : (watchAction S fuel context s).1 = some r) :
    watchAction S m context s = watchAction S fuel context s := by
  induction fuel generalizing s m with
  | zero => simp [watchAction] at hr
  | succ fuel ih =>
    obtain ⟨m, rfl⟩ : ∃ m', m = m' + 1 := ⟨m - 1, by omega⟩
    rcases h : (S.getW context.argsFirst s).1 with err | v
    · rw [watchAction_error S fuel context s err h, watchAction_error S m context s err h]
    · by_cases hf : context.follow = true
      · rw [watchAction_again S fuel context s v hf h] at hr ⊢
        rw [watchAction_again S m context s v hf h]
        rw [ih _ _ (by omega) hr]
      · have hf' : context.follow = false := by simpa using hf
        rw [watchAction_once S fuel context s v hf' h, watchAction_once S m context s v hf' h]

theorem scripted_follow (script : Nat → Except ZkError (Str × Stat × List Event))
    (context : Context) (hf : context.follow = true) (n i : Nat)
    (hok : ∀ j, j < n → ∃ v, script (i + j) = .ok v) :
    watchedPaths (watchAction (scripted script) (n + 1) context i).2.2 =
        List.replicate (n + 1) context.argsFirst ∧
      (watchAction (scripted script) (n + 1) context i).2.1 = i + n + 1 ∧
      (watchAction (scripted script) n context i).1 = none ∧
      (watchAction (scripted script) n context i).2.1 = i + n ∧
      (∀ err, script (i + n) = .error err →
        (watchAction (scripted script) (n + 1) context i).1 = some (.exited 1)) := by
  induction n generalizing i with
  | zero =>
    refine ⟨?_, ?_, rfl, rfl, ?_⟩
    · rcases h : script i with err | v
      · rw [watchAction_error (scripted script) 0 context i err h]; rfl
      · rw [watchAction_again (scripted script) 0 context i v hf h]
        show _ :: watchedPaths (watchEvents none v.2.2 ++ []) = _
        rw [List.append_nil, watchedPaths_watchEvents]; rfl
    · rcases h : script i with err | v
      · rw [watchAction_error (scripted script) 0 context i err h]; rfl
      · rw [watchAction_again (scripted script) 0 context i v hf h]; rfl
    · intro err h
      rw [watchAction_error (scripted script) 0 context i err h]
  | succ n ih =>
    obtain ⟨v, hv⟩ := hok 0 (by omega)
    have hv' : ((scripted script).getW context.argsFirst i).1 = .ok v := hv
    have ih' := ih (i + 1) (fun j hj => by
      have := hok (j + 1) (by omega)
      rwa [show i + (j + 1) = i + 1 + j by omega] at this)
    obtain ⟨h1, h2, h3, h4, h5⟩ := ih'
    have hs : ((scripted script).getW context.argsFirst i).2 = i + 1 := rfl
    refine ⟨?_, ?_, ?_, ?_, ?_⟩
    · rw [watchAction_again (scripted script) (n + 1) context i v hf hv', hs]
      show _ :: watchedPaths (watchEvents none v.2.2 ++ _) = _
      rw [watchedPaths_append, watchedPaths_watchEvents, List.nil_append, h1]
      rfl
    · rw [watchAction_again (scripted script) (n + 1) context i v hf hv', hs]
      show (watchAction (scripted script) (n + 1) context (i + 1)).2.1 = _
      rw [h2]; omega
    · rw [watchAction_again (scripted script) n context i v hf hv', hs]
      exact h3
    · rw [watchAction_again (scripted script) n context i v hf hv', hs]
      show (watchAction (scripted script) n context (i + 1)).2.1 = _
      rw [h4]; omega
    · intro err h
      rw [watchAction_again (scripted script) (n + 1) context i v hf hv', hs]
      exact h5 err (by rwa [show i + 1 + n = i + (n + 1) by omega])

/-- C6: with the session a sequence of `GetW` results.  Without `--follow`, a
first `GetW` that succeeds is the only one issued and the action returns after
its channel is closed.  With `--follow`, while the first `n` results are
channels, the run through `n + 1` rounds has issued exactly `n + 1` `GetW`
calls, all on the argument path, it is a beginning of every longer run, after
`n` rounds the action is still running, it never returns, and it leaves with
status 1 at the first `GetW` that fails. -/
theorem watch_follow (script : Nat → Except ZkError (Str × Stat × List Event))
    (context : Context) (n : Nat) :
    (context.follow = false → ∀ v, script 0 = .ok v → ∀ fuel,
      watchAction (scripted script) (fuel + 1) context 0 =
        (some .returned, 1,
          .call 0 (.getW context.argsFirst (.ok v)) :: watchEvents none v.2.2) ∧
      watchedPaths (watchAction (scripted script) (fuel + 1) context 0).2.2 =
        [context.argsFirst]) ∧
    (context.follow = true →
      (∀ fuel, (watchAction (scripted script) fuel context 0).1 ≠ some .returned) ∧
      ((∀ j, j < n → ∃ v, script j = .ok v) →
        watchedPaths (watchAction (scripted script) (n + 1) context 0).2.2 =
            List.replicate (n + 1) context.argsFirst ∧
          (watchAction (scripted script) (n + 1) context 0).2.1 = n + 1 ∧
          (∀ fuel, n + 1 ≤ fuel →
            (watchAction (scripted script) (n + 1) context 0).2.2 <+:
              (watchAction (scripted script) fuel context 0).2.2) ∧
          (watchAction (scripted script) n context 0).1 = none ∧
          (∀ err, script n = .error err → ∀ fuel, n + 1 ≤ fuel →
            (watchAction (scripted script) fuel context 0).1 = some (.exited 1) ∧
            (watchAction (scripted script) fuel context 0).2.2 =
              (watchAction (scripted script) (n + 1) context 0).2.2))) := by
  refine ⟨fun hf v hv fuel => ?_, fun hf => ⟨fun fuel => ?_, fun hok => ?_⟩⟩
  · have h := watchAction_once (scripted script) fuel context 0 v hf hv
    refine ⟨h, ?_⟩
    rw [h]
    show _ :: watchedPaths (watchEvents none v.2.2) = _
    rw [watchedPaths_watchEvents]
  · exact watchAction_follow_running _ _ _ _ hf
  · have h := scripted_follow script context hf n 0 (fun j hj => by
      rw [Nat.zero_add]; exact hok j hj)
    obtain ⟨h1, h2, h3, h4, h5⟩ := h
    refine ⟨h1, by rw [h2]; omega, fun fuel hfuel => watchAction_mono _ _ _ _ _ hfuel, h3, ?_⟩
    intro err herr fuel hfuel
    have hx := h5 err (by rw [Nat.zero_add]; exact herr)
    rw [watchAction_stable _ _ _ _ _ hfuel _ hx]
    exact ⟨hx, rfl⟩


/-- C6 on the sample script (one channel, then `GetW` fails): without
`--follow` one `GetW` on `/a` and the action returns; with `--follow` the
second `GetW` fails and the action leaves with status 1. -/
theorem watch_follow_witness :
    (watchAction (scripted sampleScript) 1 (plainContext ["/a".toList]) 0).1 =
        some .returned ∧
      watchedPaths (watchAction (scripted sampleScript) 1 (plainContext ["/a".toList]) 0).2.2 =
        ["/a".toList] ∧
      watchedPaths (watchAction (scripted sampleScript) 2
          { plainContext ["/a".toList] with follow := true } 0).2.2 =
        ["/a".toList, "/a".toList] ∧
      (watchAction (scripted sampleScript) 9
          { plainContext ["/a".toList] with follow := true } 0).1 = some (.exited 1) :=
  ⟨congrArg Prod.fst
      ((watch_follow sampleScript (plainContext ["/a".toList]) 0).1 rfl _ rfl 0).1,
    ((watch_follow sampleScript (plainContext ["/a".toList]) 0).1 rfl _ rfl 0).2,
    (((watch_follow sampleScript { plainContext ["/a".toList] with follow := true } 1).2
      rfl).2 (fun j hj => ⟨_, by interval_cases j; rfl⟩)).1,
    ((((watch_follow sampleScript { plainContext ["/a".toList] with follow := true } 1).2
      rfl).2 (fun j hj => ⟨_, by interval_cases j; rfl⟩)).2.2.2.2 (.other 1) rfl 9
      (by decide)).1⟩

/-! ### `--auto` -/

theorem setAction_auto_error {σ : Type} (S : NodeOps σ) (context : Context) (s : σ)
    (err : ZkError) (ha : context.auto = true)
    (h : (S.get (getPath context) s).1 = .error err) :
    setAction S context s =
      (.exited 1, (S.get (getPath context) s).2,
        [.call s (.get (getPath context) (.error err)), .logError (some err), .close,
          .exit 1]) := by
  simp only [setAction, ha, zkGet, h, fatal, Out.after]
  rfl

theorem setAction_auto_ok {σ : Type} (S : NodeOps σ) (context : Context) (s : σ)
    (d : Str) (st : Stat) (ha : context.auto = true)
    (h : (S.get (getPath context) s).1 = .ok (d, st)) :
    setAction S context s =
      (setWrite S context (getPath context) st.version (S.get (getPath context) s).2).after
        [.call s (.get (getPath context) (.ok (d, st)))] := by
  simp only [setAction, ha, zkGet, h]
  rfl

theorem setWrite_trace {σ : Type} (S : NodeOps σ) (context : Context) (path : Str)
    (version : Int) (s : σ) :
    ∃ rest, (setWrite S context path version s).2.2 =
        .call s (.set path (context.argsGet 1) version
          (S.set path (context.argsGet 1) version s).1) :: rest ∧
      (∀ e ∈ rest, e.isCall = false) ∧
      (∀ err, (S.set path (context.argsGet 1) version s).1 = .error err →
        rest = [.logError (some err), .close, .exit 1] ∧
        (setWrite S context path version s).1 = .exited 1) := by
  rcases h : (S.set path (context.argsGet 1) version s).1 with err | v
  · refine ⟨[.logError (some err), .close, .exit 1], ?_, ?_, ?_⟩
    · simp only [setWrite, zkSet, h, fatal, Out.after]; rfl
    · intro e he
      simp only [List.mem_cons, List.mem_singleton, List.not_mem_nil, or_false] at he
      rcases he with rfl | rfl | rfl <;> rfl
    · intro err' herr
      cases herr
      refine ⟨rfl, ?_⟩
      simp only [setWrite, zkSet, h, fatal, Out.after]
  · refine ⟨[], ?_, by simp, ?_⟩
    · simp only [setWrite, zkSet, h]
    · intro err' herr; cases herr

theorem deleteWrite_trace {σ : Type} (S : NodeOps σ) (path : Str) (version : Int) (s : σ) :
    ∃ rest, (deleteWrite S path version s).2.2 =
        .call s (.delete path version (S.delete path version s).1) :: rest ∧
      (∀ e ∈ rest, e.isCall = false) ∧
      (∀ err, (S.delete path version s).1 = some err →
        rest = [.logError (some err), .close, .exit 1] ∧
        (deleteWrite S path version s).1 = .exited 1) := by
  rcases h : (S.delete path version s).1 with _ | err
  · refine ⟨[], ?_, by simp, ?_⟩
    · simp only [deleteWrite, zkDelete, h]
    · intro err' herr; cases herr
  · refine ⟨[.logError (some err), .close, .exit 1], ?_, ?_, ?_⟩
    · simp only [deleteWrite, zkDelete, h, fatal, Out.after]; rfl
    · intro e he
      simp only [List.mem_cons, List.mem_singleton, List.not_mem_nil, or_false] at he
      rcases he with rfl | rfl | rfl <;> rfl
    · intro err' herr
      cases herr
      refine ⟨rfl, ?_⟩
      simp only [deleteWrite, zkDelete, h, fatal, Out.after]

theorem deleteAction_auto_error {σ : Type} (S : NodeOps σ) (fuel : Nat) (context : Context)
    (s : σ) (err : ZkError) (hr : context.recursive = false) (ha : context.auto = true)
    (h : (S.get (getPath context) s).1 = .error err) :
    deleteAction S fuel context s =
      (some (.exited 1), (S.get (getPath context) s).2,
        [.call s (.get (getPath context) (.error err)), .logError (some err), .close,
          .exit 1]) := by
  simp only [deleteAction, hr, ha, getVersion, zkGet, h, fatal, Out.after, Out.done]
  rfl

theorem deleteAction_auto_ok {σ : Type} (S : NodeOps σ) (fuel : Nat) (context : Context)
    (s : σ) (d : Str) (st : Stat) (hr : context.recursive = false) (ha : context.auto = true)
    (h : (S.get (getPath context) s).1 = .ok (d, st)) :
    deleteAction S fuel context s =
      ((deleteWrite S (getPath context) st.version (S.get (getPath context) s).2).after
        [.call s (.get (getPath context) (.ok (d, st)))]).done := by
  simp only [deleteAction, hr, ha, getVersion, zkGet, h]
  rfl


/-- C7: with `--auto`, for every `--version` value and every session, `set`
and the non-recursive `delete` issue one `Get` on the path; if it fails nothing
else is called; if it succeeds the next session call is the `Set` (`Delete`) on
the same path with the version of that `Get`, and no further call follows.  In
the tree model, when another client changes the version of the node right
after the `Get`, the write fails with a version mismatch and the command leaves
with status 1. -/
theorem auto_resolves_version {σ : Type} (S : NodeOps σ) (fuel : Nat) (context : Context)
    (s : σ) (ha : context.auto = true) :
    (∀ err, (S.get (getPath context) s).1 = .error err →
      setAction S context s =
        (.exited 1, (S.get (getPath context) s).2,
          [.call s (.get (getPath context) (.error err)), .logError (some err), .close,
            .exit 1])) ∧
    (∀ d st, (S.get (getPath context) s).1 = .ok (d, st) →
      ∃ rest, (setAction S context s).2.2 =
          .call s (.get (getPath context) (.ok (d, st))) ::
          .call (S.get (getPath context) s).2
            (.set (getPath context) (context.argsGet 1) st.version
              (S.set (getPath context) (context.argsGet 1) st.version
                (S.get (getPath context) s).2).1) :: rest ∧
        ∀ e ∈ rest, e.isCall = false) ∧
    (context.recursive = false →
      (∀ err, (S.get (getPath context) s).1 = .error err →
        deleteAction S fuel context s =
          (some (.exited 1), (S.get (getPath context) s).2,
            [.call s (.get (getPath context) (.error err)), .logError (some err), .close,
              .exit 1])) ∧
      (∀ d st, (S.get (getPath context) s).1 = .ok (d, st) →
        ∃ rest, (deleteAction S fuel context s).2.2 =
            .call s (.get (getPath context) (.ok (d, st))) ::
            .call (S.get (getPath context) s).2
              (.delete (getPath context) st.version
                (S.delete (getPath context) st.version (S.get (getPath context) s).2).1) ::
              rest ∧
          ∀ e ∈ rest, e.isCall = false)) ∧
    (∀ (t : Tree) (ext : Tree → Tree) (segs : List Str) (n n' : ZNode),
      parsePath (getPath context) = some segs → t.node? segs = some n →
      (ext t).node? segs = some n' → n'.version ≠ n.version →
      setAction (afterGet treeOps ext) context t =
          (.exited 1, ext t,
            [.call t (.get (getPath context) (.ok (n.data, { version := n.version }))),
              .call (ext t) (.set (getPath context) (context.argsGet 1) n.version
                (.error .badVersion)),
              .logError (some .badVersion), .close, .exit 1]) ∧
        (context.recursive = false →
          deleteAction (afterGet treeOps ext) fuel context t =
            (some (.exited 1), ext t,
              [.call t (.get (getPath context) (.ok (n.data, { version := n.version }))),
                .call (ext t) (.delete (getPath context) n.version (some .badVersion)),
                .logError (some .badVersion), .close, .exit 1]))) := by
  refine ⟨fun err h => setAction_auto_error S context s err ha h, fun d st h => ?_,
    fun hr => ⟨fun err h => deleteAction_auto_error S fuel context s err hr ha h,
      fun d st h => ?_⟩, ?_⟩
  · obtain ⟨rest, h1, h2, _⟩ :=
      setWrite_trace S context (getPath context) st.version (S.get (getPath context) s).2
    refine ⟨rest, ?_, h2⟩
    rw [setAction_auto_ok S context s d st ha h]
    show _ ++ (setWrite S context (getPath context) st.version _).2.2 = _
    rw [h1]; rfl
  · obtain ⟨rest, h1, h2, _⟩ :=
      deleteWrite_trace S (getPath context) st.version (S.get (getPath context) s).2
    refine ⟨rest, ?_, h2⟩
    rw [deleteAction_auto_ok S fuel context s d st hr ha h]
    show _ ++ (deleteWrite S (getPath context) st.version _).2.2 = _
    rw [h1]; rfl
  · intro t ext segs n n' hp hn hn' hv
    have hg1 : ((afterGet treeOps ext).get (getPath context) t).1 =
        .ok (n.data, { version := n.version }) := by
      simp [afterGet, treeOps, hp, hn]
    have hg2 : ((afterGet treeOps ext).get (getPath context) t).2 = ext t := by
      simp [afterGet, treeOps, hp, hn]
    have hs : (afterGet treeOps ext).set (getPath context) (context.argsGet 1) n.version
        (ext t) = (.error .badVersion, ext t) := by
      simp [afterGet, treeOps, hp, hn', hv]
    have hd : (afterGet treeOps ext).delete (getPath context) n.version (ext t) =
        (some .badVersion, ext t) := by
      simp [afterGet, treeOps, hp, hn', hv]
    refine ⟨?_, fun hr => ?_⟩
    · rw [setAction_auto_ok _ context t _ _ ha hg1, hg2]
      simp only [setWrite, zkSet, hs, fatal, Out.after]
      rfl
    · rw [deleteAction_auto_ok _ fuel context t _ _ hr ha hg1, hg2]
      simp only [deleteWrite, zkDelete, hd, fatal, Out.after, Out.done]
      rfl

/-- C7 on the sample tree: `set /a y --auto --version 5` while another client
writes `/a` right after the `Get`: the `Set` carries version 3, the version the
`Get` returned, and fails with a version mismatch. -/
theorem auto_resolves_version_witness :
    setAction (afterGet treeOps (fun t => t.write ["a".toList] "z".toList))
        { plainContext ["/a".toList, "y".toList] with auto := true, version := 5 } sampleTree =
      (.exited 1, sampleTree.write ["a".toList] "z".toList,
        [.call sampleTree (.get "/a".toList (.ok ("x".toList, { version := 3 }))),
          .call (sampleTree.write ["a".toList] "z".toList)
            (.set "/a".toList "y".toList 3 (.error .badVersion)),
          .logError (some .badVersion), .close, .exit 1]) :=
  ((auto_resolves_version (afterGet treeOps (fun t => t.write ["a".toList] "z".toList)) 0
    { plainContext ["/a".toList, "y".toList] with auto := true, version := 5 } sampleTree
    rfl).2.2.2 sampleTree (fun t => t.write ["a".toList] "z".toList) ["a".toList]
    { path := ["a".toList], data := "x".toList, version := 3 }
    { path := ["a".toList], data := "z".toList, version := 4 }
    (by decide) (by decide) (by decide) (by decide)).1


/-! ### Paths -/

theorem splitSep_ne_nil (x : Str) : splitSep x ≠ [] := by
  induction x with
  | nil => simp [splitSep]
  | cons c cs ih =>
    rw [splitSep]
    split
    · simp
    · split <;> simp

theorem splitSep_no_sep (x : Str) : ∀ k ∈ splitSep x, '/' ∉ k := by
  induction x with
  | nil => simp [splitSep]
  | cons c cs ih =>
    rw [splitSep]
    split
    · intro k hk
      rcases List.mem_cons.mp hk with h | h
      · simp [h]
      · exact ih k h
    · next hc =>
      split
      · intro k hk
        simp only [List.mem_singleton] at hk
        simp [hk, Ne.symm hc]
      · next h t heq =>
        intro k hk
        rw [heq] at ih
        rcases List.mem_cons.mp hk with h' | h'
        · have := ih h (List.mem_cons_self _ _)
          simp [h', Ne.symm hc, this]
        · exact ih k (List.mem_cons_of_mem _ h')

theorem splitSep_of_no_sep (k : Str) (h : '/' ∉ k) : splitSep k = [k] := by
  induction k with
  | nil => rfl
  | cons c cs ih =>
    have hc : c ≠ '/' := fun hc => h (by simp [hc])
    have hcs : '/' ∉ cs := fun hcs => h (List.mem_cons_of_mem _ hcs)
    rw [splitSep, if_neg hc, ih hcs]

theorem splitSep_append_sep (k rest : Str) (h : '/' ∉ k) :
    splitSep (k ++ '/' :: rest) = k :: splitSep rest := by
  induction k with
  | nil => simp [splitSep]
  | cons c cs ih =>
    have hc : c ≠ '/' := fun hc => h (by simp [hc])
    have hcs : '/' ∉ cs := fun hcs => h (List.mem_cons_of_mem _ hcs)
    rw [List.cons_append, splitSep, if_neg hc, ih hcs]

theorem splitSep_joinSep (segs : List Str) (hne : segs ≠ []) (h : ∀ k ∈ segs, '/' ∉ k) :
    splitSep (joinSep segs) = segs := by
  induction segs with
  | nil => exact absurd rfl hne
  | cons k rest ih =>
    cases rest with
    | nil => exact splitSep_of_no_sep k (h k (List.mem_cons_self _ _))
    | cons k' rest' =>
      rw [joinSep, splitSep_append_sep _ _ (h k (List.mem_cons_self _ _)),
        ih (by simp) (fun x hx => h x (List.mem_cons_of_mem _ hx))]

theorem joinSep_splitSep (x : Str) : joinSep (splitSep x) = x := by
  induction x with
  | nil => rfl
  | cons c cs ih =>
    rw [splitSep]
    split
    · next hc =>
      rcases hs : splitSep cs with _ | ⟨h, t⟩
      · exact absurd hs (splitSep_ne_nil cs)
      · rw [hs] at ih
        rw [joinSep, ih, hc]; rfl
    · split
      · next heq => exact absurd heq (splitSep_ne_nil cs)
      · next h t heq =>
        rw [heq] at ih
        cases t with
        | nil => simp only [joinSep] at ih ⊢; rw [ih]
        | cons t1 t2 => simp only [joinSep] at ih ⊢; rw [List.cons_append, ih]

theorem joinSep_snoc (segs : List Str) (k : Str) (hne : segs ≠ []) :
    joinSep (segs ++ [k]) = joinSep segs ++ '/' :: k := by
  induction segs with
  | nil => exact absurd rfl hne
  | cons a rest ih =>
    cases rest with
    | nil => rfl
    | cons b rest' =>
      have := ih (by simp)
      show a ++ '/' :: joinSep ((b :: rest') ++ [k]) = (a ++ '/' :: joinSep (b :: rest')) ++ '/' :: k
      rw [this, List.append_assoc]; rfl

theorem goodName_ne_nil {k : Str} (h : goodName k) : k ≠ [] := h.1

theorem goodName_no_sep {k : Str} (h : goodName k) : '/' ∉ k := h.2.1

theorem cleanStep_good (rooted : Bool) (acc : List Str × Nat) (k : Str) (h : goodName k) :
    cleanStep rooted acc k = (acc.1 ++ [k], acc.2) := by
  rw [cleanStep, if_neg h.1, if_neg h.2.2.1, if_neg h.2.2.2]

theorem foldl_cleanStep_good (rooted : Bool) (acc : List Str × Nat) (segs : List Str)
    (h : ∀ k ∈ segs, goodName k) :
    segs.foldl (cleanStep rooted) acc = (acc.1 ++ segs, acc.2) := by
  induction segs generalizing acc with
  | nil => simp
  | cons k rest ih =>
    rw [List.foldl_cons, cleanStep_good rooted acc k (h k (List.mem_cons_self _ _)),
      ih _ (fun x hx => h x (List.mem_cons_of_mem _ hx))]
    simp

theorem render_ne_nil (segs : List Str) : render segs ≠ [] := by
  simp [render]

/-- The child path computed by `deleteRecursive` and by `ls`: joining the path
of a node with a good child name gives the path of the child. -/
theorem Join_render (segs : List Str) (k : Str) (hs : ∀ x ∈ segs, goodName x)
    (hk : goodName k) : Join [render segs, k] = render (segs ++ [k]) := by
  have hall : ∀ x ∈ segs ++ [k], goodName x := by
    intro x hx
    rcases List.mem_append.mp hx with h | h
    · exact hs x h
    · rw [List.mem_singleton.mp h]; exact hk
  rw [Join, if_neg (render_ne_nil segs)]
  simp only [joinSep, render, List.cons_append]
  rw [Clean]
  simp only [decide_True, if_true, splitSep]
  congr 1
  cases segs with
  | nil =>
    simp only [joinSep, List.nil_append, splitSep, if_true]
    rw [splitSep_of_no_sep k hk.2.1]
    simp only [List.foldl_cons, List.foldl_nil, cleanStep, if_true]
    rw [if_neg hk.1, if_neg hk.2.2.1, if_neg hk.2.2.2]
    rfl
  | cons a rest =>
    rw [← joinSep_snoc _ _ (by simp), splitSep_joinSep _ (by simp) (fun x hx => (hall x hx).2.1)]
    simp only [List.foldl_cons, cleanStep, if_true]
    rw [foldl_cleanStep_good _ _ _ hall]
    rfl

theorem joinSep_ne_nil (segs : List Str) (hne : segs ≠ []) (h : ∀ k ∈ segs, k ≠ []) :
    joinSep segs ≠ [] := by
  cases segs with
  | nil => exact absurd rfl hne
  | cons a rest =>
    have ha := h a (List.mem_cons_self _ _)
    cases rest with
    | nil => exact ha
    | cons b rest' => simp [joinSep, ha]

theorem parsePath_render (segs : List Str) (hs : ∀ x ∈ segs, goodName x) :
    parsePath (render segs) = some segs := by
  rw [render, parsePath, if_pos rfl]
  cases segs with
  | nil => simp [joinSep]
  | cons a rest =>
    rw [if_neg (joinSep_ne_nil _ (by simp) (fun k hk => (hs k hk).1)),
      splitSep_joinSep _ (by simp) (fun x hx => (hs x hx).2.1), if_pos hs]

theorem render_of_parsePath (path : Str) (segs : List Str) (h : parsePath path = some segs) :
    path = render segs ∧ ∀ x ∈ segs, goodName x := by
  cases path with
  | nil => simp [parsePath] at h
  | cons c rest =>
    rw [parsePath] at h
    split at h
    · next hc =>
      split at h
      · next hr =>
        cases h
        exact ⟨by rw [hc, hr]; rfl, by simp⟩
      · split at h
        · next hg =>
          cases h
          exact ⟨by rw [render, joinSep_splitSep, hc], hg⟩
        · cases h
    · cases h


theorem cleanStep_elems (rooted : Bool) (acc : List Str × Nat) (seg : Str)
    (hseg : '/' ∉ seg) (hacc : ∀ k ∈ acc.1, k ≠ [] ∧ '/' ∉ k) :
    ∀ k ∈ (cleanStep rooted acc seg).1, k ≠ [] ∧ '/' ∉ k := by
  have hpush : seg ≠ [] → ∀ k ∈ acc.1 ++ [seg], k ≠ [] ∧ '/' ∉ k := by
    intro hne k hk
    rcases List.mem_append.mp hk with h | h
    · exact hacc k h
    · rw [List.mem_singleton.mp h]; exact ⟨hne, hseg⟩
  rw [cleanStep]
  split
  · exact hacc
  · next hne =>
    split
    · exact hacc
    · split
      · split
        · intro k hk
          exact hacc k (List.mem_of_mem_dropLast hk)
        · split
          · exact hacc
          · exact hpush hne
      · exact hpush hne

theorem foldl_cleanStep_elems (rooted : Bool) (segs : List Str) (acc : List Str × Nat)
    (hsegs : ∀ k ∈ segs, '/' ∉ k) (hacc : ∀ k ∈ acc.1, k ≠ [] ∧ '/' ∉ k) :
    ∀ k ∈ (segs.foldl (cleanStep rooted) acc).1, k ≠ [] ∧ '/' ∉ k := by
  induction segs generalizing acc with
  | nil => exact hacc
  | cons seg rest ih =>
    rw [List.foldl_cons]
    exact ih _ (fun k hk => hsegs k (List.mem_cons_of_mem _ hk))
      (cleanStep_elems rooted acc seg (hsegs seg (List.mem_cons_self _ _)) hacc)

theorem joinSep_head (out : List Str) (h : ∀ k ∈ out, k ≠ [] ∧ '/' ∉ k) :
    (joinSep out).head? ≠ some '/' := by
  cases out with
  | nil => simp [joinSep]
  | cons a rest =>
    obtain ⟨hne, hns⟩ := h a (List.mem_cons_self _ _)
    cases a with
    | nil => exact absurd rfl hne
    | cons c cs =>
      have hc : c ≠ '/' := fun hc => hns (by simp [hc])
      cases rest with
      | nil => simpa [joinSep] using hc
      | cons b rest' => simpa [joinSep] using hc

/-- The path `getPath` hands to the session starts with exactly one separator,
whatever the argument. -/
theorem getPath_rooted (context : Context) :
    ∃ rest, getPath context = '/' :: rest ∧ rest.head? ≠ some '/' := by
  refine ⟨joinSep ((splitSep ('/' :: '/' :: context.argsGet 0)).foldl (cleanStep true)
    ([], 0)).1, ?_, ?_⟩
  · show Join [['/'], context.argsGet 0] = _
    rw [Join, if_neg (by simp)]
    simp only [joinSep, List.singleton_append]
    rw [Clean]
    simp
  · exact joinSep_head _ (foldl_cleanStep_elems true _ _ (splitSep_no_sep _) (by simp))


/-! ### The tree model -/

theorem childName_eq_some (segs path : List Str) (k : Str) :
    childName segs path = some k ↔ path = segs ++ [k] := by
  unfold childName
  constructor
  · intro h
    split at h
    · next hd =>
      have := List.dropLast_append_getLast? k (by rw [h]; exact rfl)
      rw [← this, hd]
    · cases h
  · intro h
    subst h
    simp

theorem mem_childNames (t : Tree) (segs : List Str) (k : Str) :
    k ∈ t.childNames segs ↔ segs ++ [k] ∈ t.paths := by
  unfold Tree.childNames
  rw [List.mem_filterMap]
  constructor
  · rintro ⟨path, hmem, h⟩
    rw [childName_eq_some] at h
    rwa [← h]
  · intro h
    exact ⟨_, h, (childName_eq_some _ _ _).mpr rfl⟩

theorem childNames_nodup (t : Tree) (segs : List Str) (h : t.paths.Nodup) :
    (t.childNames segs).Nodup := by
  unfold Tree.childNames
  refine List.Nodup.filterMap ?_ h
  intro a a' b hb hb'
  rw [Option.mem_def, childName_eq_some] at hb hb'
  rw [hb, hb']

theorem node?_some {t : Tree} {segs : List Str} {n : ZNode} (h : t.node? segs = some n) :
    n ∈ t ∧ n.path = segs := by
  unfold Tree.node? at h
  exact ⟨List.mem_of_find?_eq_some h, by simpa using List.find?_some h⟩

theorem node?_of_mem_paths {t : Tree} {segs : List Str} (h : segs ∈ t.paths) :
    ∃ n, t.node? segs = some n := by
  unfold Tree.paths at h
  obtain ⟨n, hn, hp⟩ := List.mem_map.mp h
  rcases hf : t.node? segs with _ | m
  · unfold Tree.node? at hf
    rw [List.find?_eq_none] at hf
    exact absurd (by simpa using hp) (hf n hn)
  · exact ⟨m, rfl⟩

theorem mem_paths_of_node? {t : Tree} {segs : List Str} {n : ZNode}
    (h : t.node? segs = some n) : segs ∈ t.paths := by
  obtain ⟨hn, hp⟩ := node?_some h
  exact List.mem_map.mpr ⟨n, hn, hp⟩

theorem node?_none_of_not_mem {t : Tree} {segs : List Str} (h : segs ∉ t.paths) :
    t.node? segs = none := by
  rcases hf : t.node? segs with _ | m
  · rfl
  · exact absurd (mem_paths_of_node? hf) h

theorem mem_prune {t : Tree} {q : List Str} {n : ZNode} :
    n ∈ t.prune q ↔ n ∈ t ∧ ¬ q <+: n.path := by
  simp [Tree.prune, List.mem_filter]

theorem mem_paths_prune {t : Tree} {q r : List Str} :
    r ∈ (t.prune q).paths ↔ r ∈ t.paths ∧ ¬ q <+: r := by
  unfold Tree.paths
  simp only [List.mem_map, mem_prune]
  constructor
  · rintro ⟨n, ⟨hn, hq⟩, rfl⟩
    exact ⟨⟨n, hn, rfl⟩, hq⟩
  · rintro ⟨⟨n, hn, rfl⟩, hq⟩
    exact ⟨n, ⟨hn, hq⟩, rfl⟩

theorem prefix_dropLast {r q : List Str} (h : r <+: q) (hne : r ≠ q) : r <+: q.dropLast := by
  obtain ⟨s, rfl⟩ := h
  have hs : s ≠ [] := by
    intro hs; apply hne; simp [hs]
  rw [List.dropLast_append_of_ne_nil _ hs]
  exact List.prefix_append _ _

theorem prune_wf {t : Tree} (q : List Str) (h : t.WF) : (t.prune q).WF := by
  obtain ⟨hnd, hall⟩ := h
  refine ⟨?_, ?_⟩
  · unfold Tree.paths Tree.prune
    exact (List.Nodup.sublist (List.Sublist.map _ (List.filter_sublist _)) hnd)
  · intro n hn
    obtain ⟨hn, hq⟩ := mem_prune.mp hn
    refine ⟨(hall n hn).1, fun hne => ?_⟩
    rw [mem_paths_prune]
    refine ⟨(hall n hn).2 hne, fun hpre => hq ?_⟩
    exact hpre.trans (List.dropLast_prefix _)

theorem wf_prefix_closed {t : Tree} (h : t.WF) :
    ∀ (m : Nat) (q : List Str), q.length = m → q ∈ t.paths → ∀ r, r <+: q → r ∈ t.paths := by
  intro m
  induction m with
  | zero =>
    intro q hq hmem r hr
    have hq0 : q = [] := List.length_eq_zero.mp hq
    subst hq0
    rw [List.prefix_nil.mp hr]; exact hmem
  | succ m ih =>
    intro q hq hmem r hr
    by_cases heq : r = q
    · rw [heq]; exact hmem
    · obtain ⟨n, hn, hp⟩ := List.mem_map.mp hmem
      have hne : n.path ≠ [] := by
        rw [hp]; intro h0; rw [h0] at hq; simp at hq
      have hpar := (h.2 n hn).2 hne
      rw [hp] at hpar
      exact ih q.dropLast (by simp [hq]) hpar r (prefix_dropLast hr heq)

theorem wf_good {t : Tree} (h : t.WF) {q : List Str} (hq : q ∈ t.paths) :
    ∀ k ∈ q, goodName k := by
  obtain ⟨n, hn, rfl⟩ := List.mem_map.mp hq
  exact (h.2 n hn).1


theorem node?_prune (t : Tree) (q segs : List Str) (h : ¬ q <+: segs) :
    (t.prune q).node? segs = t.node? segs := by
  unfold Tree.node? Tree.prune
  induction t with
  | nil => rfl
  | cons n t ih =>
    by_cases hq : q <+: n.path
    · have hp : ¬ n.path = segs := fun hp => h (hp ▸ hq)
      rw [List.filter_cons_of_neg (by simpa using hq), List.find?_cons_of_neg _ (by simpa using hp)]
      exact ih
    · rw [List.filter_cons_of_pos (by simpa using hq)]
      by_cases hp : n.path = segs
      · rw [List.find?_cons_of_pos _ (by simpa using hp),
          List.find?_cons_of_pos _ (by simpa using hp)]
      · rw [List.find?_cons_of_neg _ (by simpa using hp),
          List.find?_cons_of_neg _ (by simpa using hp)]
        exact ih

theorem childNames_prune (t : Tree) (q segs : List Str)
    (h : ∀ k ∈ t.childNames segs, ¬ q <+: segs ++ [k]) :
    (t.prune q).childNames segs = t.childNames segs := by
  unfold Tree.childNames Tree.paths Tree.prune at *
  induction t with
  | nil => rfl
  | cons n t ih =>
    have ih' := ih (fun k hk => h k (by
      simp only [List.map_cons, List.filterMap_cons]
      split
      · exact hk
      · exact List.mem_cons_of_mem _ hk))
    rw [List.filter_cons]
    split
    · simp only [List.map_cons, List.filterMap_cons]
      split
      · exact ih'
      · rw [ih']
    · next hq =>
      simp only [List.map_cons, List.filterMap_cons]
      split
      · exact ih'
      · next k hk =>
        exfalso
        have hpath := (childName_eq_some _ _ _).mp hk
        apply h k
        · simp only [List.map_cons, List.filterMap_cons, hk]
          exact List.mem_cons_self _ _
        · rw [← hpath]
          simpa using hq

theorem pruneAll_eq_filter (t : Tree) (segs : List Str) (keys : List Str) :
    t.pruneAll segs keys =
      t.filter (fun n => decide (∀ k ∈ keys, ¬ (segs ++ [k]) <+: n.path)) := by
  induction keys generalizing t with
  | nil => simp [Tree.pruneAll]
  | cons k keys ih =>
    rw [Tree.pruneAll, ih, Tree.prune, List.filter_filter]
    apply List.filter_congr
    intro n _
    simp only [List.mem_cons, forall_eq_or_imp, Bool.decide_and, Bool.and_comm]

theorem mem_pruneAll {t : Tree} {segs : List Str} {keys : List Str} {n : ZNode} :
    n ∈ t.pruneAll segs keys ↔ n ∈ t ∧ ∀ k ∈ keys, ¬ (segs ++ [k]) <+: n.path := by
  rw [pruneAll_eq_filter, List.mem_filter]
  simp

theorem prefix_snoc_self (segs : List Str) (k : Str) : ¬ (segs ++ [k]) <+: segs := by
  intro h
  have := h.length_le
  simp at this

theorem prefix_snoc_inj {segs : List Str} {k k' : Str} (h : (segs ++ [k]) <+: (segs ++ [k'])) :
    k = k' := by
  have := h.eq_of_length (by simp)
  simpa using this

theorem prefix_child {segs q : List Str} (h : segs <+: q) (hne : q ≠ segs) :
    ∃ k, (segs ++ [k]) <+: q := by
  obtain ⟨s, rfl⟩ := h
  cases s with
  | nil => simp at hne
  | cons k s' => exact ⟨k, ⟨s', by simp⟩⟩

theorem prefix_of_snoc {segs q : List Str} {k : Str} (h : (segs ++ [k]) <+: q) : segs <+: q :=
  (List.prefix_append segs [k]).trans h

/-- After the subtrees of all children of a node are gone, removing the node
itself leaves the tree without its subtree. -/
theorem pruneAll_remove (t : Tree) (segs : List Str) (h : t.WF) :
    (t.pruneAll segs (t.childNames segs)).remove segs = t.prune segs := by
  rw [pruneAll_eq_filter, Tree.remove, Tree.prune, List.filter_filter]
  apply List.filter_congr
  intro n hn
  by_cases hpre : segs <+: n.path
  · simp only [hpre, not_true_eq_false, decide_False, Bool.and_eq_false_imp, decide_eq_true_eq,
      decide_eq_false_iff_not, not_forall, Classical.not_imp, not_not]
    intro hne
    obtain ⟨k, hk⟩ := prefix_child hpre hne
    refine ⟨k, ?_, hk⟩
    rw [mem_childNames]
    exact wf_prefix_closed h _ n.path rfl (List.mem_map.mpr ⟨n, hn, rfl⟩) _ hk
  · simp only [hpre, not_false_eq_true, decide_True, Bool.and_eq_true, decide_eq_true_eq]
    refine ⟨fun heq => hpre (by rw [heq]), fun k _ hk => hpre (prefix_of_snoc hk)⟩

theorem postOrder_congr (t t' : Tree) (fuel : Nat) (q : List Str)
    (h : ∀ r, q <+: r → t'.childNames r = t.childNames r) :
    postOrder t' fuel q = postOrder t fuel q := by
  induction fuel generalizing q with
  | zero => rfl
  | succ fuel ih =>
    rw [postOrder, postOrder, h q (List.prefix_refl _)]
    congr 1
    have : ∀ k, postOrder t' fuel (q ++ [k]) = postOrder t fuel (q ++ [k]) := by
      intro k
      exact ih _ (fun r hr => h r (prefix_of_snoc hr))
    simp only [this]

theorem postOrder_prune (t : Tree) (fuel : Nat) (segs : List Str) (k k' : Str) (hk : k ≠ k') :
    postOrder (t.prune (segs ++ [k])) fuel (segs ++ [k']) = postOrder t fuel (segs ++ [k']) := by
  apply postOrder_congr
  intro r hr
  apply childNames_prune
  intro x _ hx
  have h1 : (segs ++ [k']) <+: r ++ [x] := hr.trans (List.prefix_append _ _)
  have h2 := List.prefix_of_prefix_length_le hx h1 (by simp)
  exact hk (prefix_snoc_inj h2)

theorem le_depth {t : Tree} {n : ZNode} (h : n ∈ t) : n.path.length ≤ t.depth := by
  induction t with
  | nil => simp at h
  | cons m t ih =>
    rw [Tree.depth]
    rcases List.mem_cons.mp h with h | h
    · rw [h]; exact Nat.le_max_left _ _
    · exact (ih h).trans (Nat.le_max_right _ _)


theorem deletedPaths_append {σ : Type} (a b : List (Effect σ)) :
    deletedPaths (a ++ b) = deletedPaths a ++ deletedPaths b := by
  induction a with
  | nil => rfl
  | cons e a ih =>
    cases e with
    | call pre c => cases c <;> simp [deletedPaths, ih]
    | _ => simp [deletedPaths, ih]

theorem cleanDeletes_nil : CleanDeletes [] := by
  intro s q v r h; simp at h

theorem cleanDeletes_append {a b : List (Effect Tree)} (ha : CleanDeletes a)
    (hb : CleanDeletes b) : CleanDeletes (a ++ b) := by
  intro s q v r h
  rcases List.mem_append.mp h with h | h
  · exact ha s q v r h
  · exact hb s q v r h

theorem guarded_nil {σ : Type} : Guarded ([] : List (Effect σ)) := by
  intro pre post s q v r h
  simp at h

theorem guarded_append {σ : Type} {a b : List (Effect σ)} (ha : Guarded a) (hb : Guarded b) :
    Guarded (a ++ b) := by
  intro pre post s q v r h
  rcases List.append_eq_append_iff.mp h with ⟨a', h1, h2⟩ | ⟨c', h1, h2⟩
  · obtain ⟨pre', s', d, hpre⟩ := hb a' post s q v r h2
    exact ⟨a ++ pre', s', d, by rw [h1, hpre, List.append_assoc]⟩
  · cases c' with
    | nil =>
      obtain ⟨pre', s', d, hpre⟩ := hb [] post s q v r (by simpa using h2.symm)
      simp at hpre
    | cons x c'' =>
      simp only [List.cons_append, List.cons.injEq] at h2
      obtain ⟨hx, _⟩ := h2
      exact ha pre c'' s q v r (by rw [h1, hx])

theorem guarded_single {σ : Type} (e : Effect σ)
    (h : ∀ s q v r, e ≠ .call s (.delete q v r)) : Guarded [e] := by
  intro pre post s q v r heq
  cases pre with
  | nil =>
    simp only [List.nil_append, List.cons.injEq] at heq
    exact absurd heq.1 (h s q v r)
  | cons x pre' =>
    simp only [List.cons_append, List.cons.injEq] at heq
    have := heq.2
    simp at this

theorem guarded_get_delete {σ : Type} (s s1 : σ) (path : Str) (d : Str) (st : Stat)
    (r : GoError) :
    Guarded [Effect.call s (.get path (.ok (d, st))), .call s1 (.delete path st.version r)] := by
  intro pre post s' q v r' heq
  cases pre with
  | nil => simp at heq
  | cons x pre' =>
    cases pre' with
    | nil =>
      simp only [List.cons_append, List.nil_append, List.cons.injEq, Effect.call.injEq,
        Call.delete.injEq] at heq
      obtain ⟨hx, ⟨_, hq, hv, _⟩, _⟩ := heq
      exact ⟨[], s, d, by rw [← hx, ← hq, ← hv]; rfl⟩
    | cons y pre'' =>
      simp only [List.cons_append, List.cons.injEq] at heq
      have := heq.2.2
      simp at this

theorem deleteSelf_guarded {σ : Type} (S : NodeOps σ) (path : Str) (s : σ) :
    Guarded (deleteSelf S path s).2.2 := by
  rcases hg : (S.get path s).1 with err | ⟨d, st⟩
  · rw [deleteSelf_get_error S path s err hg]
    exact guarded_single _ (by intro s q v r h; cases h)
  · rw [deleteSelf_get_ok S path s d st hg]
    exact guarded_get_delete _ _ _ _ _ _

theorem deleteKeys_guarded {σ : Type} (self : Str → σ → Out σ (Option GoError))
    (hself : ∀ p s, Guarded (self p s).2.2) (path : Str) (keys : List Str) (s : σ) :
    Guarded (deleteKeys self path keys s).2.2 := by
  induction keys generalizing s with
  | nil => exact guarded_nil
  | cons k keys ih =>
    have h := hself (Join [path, k]) s
    rw [deleteKeys]
    split
    · next s1 tr heq =>
      rw [heq] at h
      exact guarded_append h (ih s1)
    · exact h

theorem deleteRecursive_guarded {σ : Type} (S : NodeOps σ) (fuel : Nat) (path : Str) (s : σ) :
    Guarded (deleteRecursive S fuel path s).2.2 := by
  induction fuel generalizing path s with
  | zero => exact guarded_nil
  | succ fuel ih =>
    rcases hc : (S.children path s).1 with err | ⟨keys, st⟩
    · rw [deleteRecursive_children_error S fuel path s err hc]
      exact guarded_single _ (by intro s q v r h; cases h)
    · have hg : Guarded [Effect.call s (Call.children path (Except.ok (keys, st)))] :=
        guarded_single _ (by intro s q v r h; cases h)
      have hk := deleteKeys_guarded (deleteRecursive S fuel) ih path keys (S.children path s).2
      rcases hkeq : deleteKeys (deleteRecursive S fuel) path keys (S.children path s).2 with
        ⟨r, s2, tr2⟩
      rw [hkeq] at hk
      by_cases hr : r = some none
      · subst hr
        rw [deleteRecursive_loop_done S fuel path s keys st s2 tr2 hc hkeq]
        exact guarded_append (a := _ :: tr2) (guarded_append hg hk) (deleteSelf_guarded S path s2)
      · rw [deleteRecursive_loop_left S fuel path s keys st r s2 tr2 hc hkeq hr]
        exact guarded_append hg hk

theorem treeOps_children {t : Tree} {path : Str} {segs : List Str} {n : ZNode}
    (hp : parsePath path = some segs) (hn : t.node? segs = some n) :
    treeOps.children path t = (.ok (t.childNames segs, { version := n.version }), t) := by
  simp [treeOps, hp, hn]

theorem treeOps_get {t : Tree} {path : Str} {segs : List Str} {n : ZNode}
    (hp : parsePath path = some segs) (hn : t.node? segs = some n) :
    treeOps.get path t = (.ok (n.data, { version := n.version }), t) := by
  simp [treeOps, hp, hn]

theorem treeOps_delete {t : Tree} {path : Str} {segs : List Str} {n : ZNode}
    (hp : parsePath path = some segs) (hn : t.node? segs = some n)
    (hc : t.childNames segs = []) :
    treeOps.delete path n.version t = (none, t.remove segs) := by
  simp [treeOps, hp, hn, hc]

theorem node?_pruneAll (t : Tree) (segs : List Str) (keys : List Str) :
    (t.pruneAll segs keys).node? segs = t.node? segs := by
  induction keys generalizing t with
  | nil => rfl
  | cons k keys ih =>
    rw [Tree.pruneAll, ih, node?_prune _ _ _ (prefix_snoc_self segs k)]

theorem childNames_pruneAll (t : Tree) (segs : List Str) :
    (t.pruneAll segs (t.childNames segs)).childNames segs = [] := by
  rw [List.eq_nil_iff_forall_not_mem]
  intro k hk
  rw [mem_childNames] at hk
  obtain ⟨n, hn, hp⟩ := List.mem_map.mp hk
  obtain ⟨hnt, hall⟩ := mem_pruneAll.mp hn
  have hkt : k ∈ t.childNames segs := by
    rw [mem_childNames]
    exact List.mem_map.mpr ⟨n, hnt, hp⟩
  apply hall k hkt
  show (segs ++ [k]) <+: n.path
  rw [hp]

theorem deleteKeys_cons_done {σ : Type} (self : Str → σ → Out σ (Option GoError)) (path : Str)
    (k : Str) (keys : List Str) (s : σ) (h : (self (Join [path, k]) s).1 = some none) :
    deleteKeys self path (k :: keys) s =
      (deleteKeys self path keys (self (Join [path, k]) s).2.1).after
        (self (Join [path, k]) s).2.2 := by
  rcases hs : self (Join [path, k]) s with ⟨r, s1, tr⟩
  rw [hs] at h
  simp only [] at h
  subst h
  simp [deleteKeys, hs]

theorem flatMap_congr_mem {α β : Type} (l : List α) (f g : α → List β)
    (h : ∀ a ∈ l, f a = g a) : l.flatMap f = l.flatMap g := by
  induction l with
  | nil => rfl
  | cons a l ih =>
    rw [List.flatMap_cons, List.flatMap_cons, h a (List.mem_cons_self _ _),
      ih (fun x hx => h x (List.mem_cons_of_mem _ hx))]


/-- The loop of `deleteRecursive` on the tree model, given that the recursive
call removes the subtree of each child. -/
theorem deleteKeys_tree (fuel d : Nat) (segs : List Str)
    (H : ∀ (t : Tree) (k : Str), t.WF → segs ++ [k] ∈ t.paths →
      (∀ n ∈ t, (segs ++ [k]) <+: n.path → n.path.length ≤ (segs ++ [k]).length + d) →
      (deleteRecursive treeOps fuel (render (segs ++ [k])) t).1 = some none ∧
      (deleteRecursive treeOps fuel (render (segs ++ [k])) t).2.1 = t.prune (segs ++ [k]) ∧
      deletedPaths (deleteRecursive treeOps fuel (render (segs ++ [k])) t).2.2 =
        (postOrder t fuel (segs ++ [k])).map render ∧
      CleanDeletes (deleteRecursive treeOps fuel (render (segs ++ [k])) t).2.2) :
    ∀ (keys : List Str) (t : Tree), t.WF → segs ∈ t.paths → keys.Nodup →
      (∀ k ∈ keys, segs ++ [k] ∈ t.paths) →
      (∀ n ∈ t, ∀ k ∈ keys, (segs ++ [k]) <+: n.path → n.path.length ≤ segs.length + 1 + d) →
      (deleteKeys (deleteRecursive treeOps fuel) (render segs) keys t).1 = some none ∧
      (deleteKeys (deleteRecursive treeOps fuel) (render segs) keys t).2.1 =
        t.pruneAll segs keys ∧
      deletedPaths (deleteKeys (deleteRecursive treeOps fuel) (render segs) keys t).2.2 =
        (keys.flatMap (fun k => postOrder t fuel (segs ++ [k]))).map render ∧
      CleanDeletes (deleteKeys (deleteRecursive treeOps fuel) (render segs) keys t).2.2 := by
  intro keys
  induction keys with
  | nil =>
    intro t _ _ _ _ _
    exact ⟨rfl, rfl, rfl, cleanDeletes_nil⟩
  | cons k keys ih =>
    intro t hwf hmem hnd hkeys hbound
    have hgood := wf_good hwf hmem
    have hkmem := hkeys k (List.mem_cons_self _ _)
    have hkgood : goodName k := wf_good hwf hkmem k (by simp)
    have hjoin := Join_render segs k hgood hkgood
    obtain ⟨h1, h2, h3, h4⟩ := H t k hwf hkmem (fun n hn hpre => by
      have := hbound n hn k (List.mem_cons_self _ _) hpre
      simpa using this)
    have hdone := deleteKeys_cons_done (deleteRecursive treeOps fuel) (render segs) k keys t
      (by rw [hjoin]; exact h1)
    rw [hjoin] at hdone
    rw [hdone, h2]
    have hnd' := List.nodup_cons.mp hnd
    obtain ⟨i1, i2, i3, i4⟩ := ih (t.prune (segs ++ [k])) (prune_wf _ hwf)
      (mem_paths_prune.mpr ⟨hmem, prefix_snoc_self segs k⟩) hnd'.2
      (fun k' hk' => mem_paths_prune.mpr ⟨hkeys k' (List.mem_cons_of_mem _ hk'), fun hpre =>
        hnd'.1 (by rw [prefix_snoc_inj hpre]; exact hk')⟩)
      (fun n hn k' hk' hpre => hbound n (mem_prune.mp hn).1 k' (List.mem_cons_of_mem _ hk') hpre)
    refine ⟨i1, i2, ?_, cleanDeletes_append h4 i4⟩
    show deletedPaths (_ ++ _) = _
    rw [deletedPaths_append, h3, i3, List.flatMap_cons, List.map_append]
    congr 2
    apply flatMap_congr_mem
    intro k' hk'
    exact postOrder_prune t fuel segs k k' (fun heq => hnd'.1 (by rw [heq]; exact hk'))

/-- The end of `deleteRecursive` on the tree model, once the loop has removed
the subtrees of all children. -/
theorem deleteRecursive_tree_finish (t : Tree) (segs : List Str) (fuel : Nat) (hwf : t.WF)
    (hmem : segs ∈ t.paths)
    (hloop :
      (deleteKeys (deleteRecursive treeOps fuel) (render segs) (t.childNames segs) t).1 =
        some none ∧
      (deleteKeys (deleteRecursive treeOps fuel) (render segs) (t.childNames segs) t).2.1 =
        t.pruneAll segs (t.childNames segs) ∧
      deletedPaths
          (deleteKeys (deleteRecursive treeOps fuel) (render segs) (t.childNames segs) t).2.2 =
        ((t.childNames segs).flatMap (fun k => postOrder t fuel (segs ++ [k]))).map render ∧
      CleanDeletes
        (deleteKeys (deleteRecursive treeOps fuel) (render segs) (t.childNames segs) t).2.2) :
    (deleteRecursive treeOps (fuel + 1) (render segs) t).1 = some none ∧
    (deleteRecursive treeOps (fuel + 1) (render segs) t).2.1 = t.prune segs ∧
    deletedPaths (deleteRecursive treeOps (fuel + 1) (render segs) t).2.2 =
      (postOrder t (fuel + 1) segs).map render ∧
    CleanDeletes (deleteRecursive treeOps (fuel + 1) (render segs) t).2.2 := by
  obtain ⟨n, hn⟩ := node?_of_mem_paths hmem
  have hp := parsePath_render segs (wf_good hwf hmem)
  have hc := treeOps_children hp hn
  obtain ⟨l1, l2, l3, l4⟩ := hloop
  rcases hk : deleteKeys (deleteRecursive treeOps fuel) (render segs) (t.childNames segs) t with
    ⟨r, s2, tr2⟩
  rw [hk] at l1 l2 l3 l4
  simp only [] at l1 l2 l3 l4
  subst l1
  have hn2 : s2.node? segs = some n := by rw [l2, node?_pruneAll]; exact hn
  have hc2 : s2.childNames segs = [] := by rw [l2]; exact childNames_pruneAll t segs
  have hg := treeOps_get hp hn2
  have hd := treeOps_delete hp hn2 hc2
  have hrec := deleteRecursive_loop_done treeOps fuel (render segs) t (t.childNames segs)
    { version := n.version } s2 tr2 (by rw [hc]) (by rw [hc]; exact hk)
  have hself := deleteSelf_get_ok treeOps (render segs) s2 n.data { version := n.version }
    (by rw [hg])
  rw [hg] at hself
  simp only [hd] at hself
  rw [hrec, hself]
  refine ⟨rfl, ?_, ?_, ?_⟩
  · show s2.remove segs = _
    rw [l2, pruneAll_remove t segs hwf]
  · show deletedPaths (_ :: tr2 ++ _) = _
    rw [postOrder, List.map_append, ← l3]
    show deletedPaths (tr2 ++ _) = _
    rw [deletedPaths_append]
    rfl
  · intro s q v r hmem'
    simp only [Out.after, List.cons_append, List.mem_cons, List.mem_append, List.mem_singleton,
      List.not_mem_nil, or_false, Effect.call.injEq, Call.delete.injEq, reduceCtorEq, and_false,
      false_or] at hmem'
    rcases hmem' with h | h
    · exact l4 s q v r h
    · obtain ⟨hs, hq, _, hr⟩ := h
      subst hs; subst hq; subst hr
      exact ⟨rfl, segs, hp, hc2⟩

/-- On a well-formed tree, with fuel beyond the depth of the subtree,
`deleteRecursive` at an existing node returns `nil`, leaves the tree without
the subtree, deletes in post-order and never deletes a node that has
children. -/
theorem deleteRecursive_tree (d : Nat) :
    ∀ (t : Tree) (segs : List Str) (fuel : Nat), t.WF → segs ∈ t.paths →
      (∀ n ∈ t, segs <+: n.path → n.path.length ≤ segs.length + d) → d < fuel →
      (deleteRecursive treeOps fuel (render segs) t).1 = some none ∧
      (deleteRecursive treeOps fuel (render segs) t).2.1 = t.prune segs ∧
      deletedPaths (deleteRecursive treeOps fuel (render segs) t).2.2 =
        (postOrder t fuel segs).map render ∧
      CleanDeletes (deleteRecursive treeOps fuel (render segs) t).2.2 := by
  induction d with
  | zero =>
    intro t segs fuel hwf hmem hbound hfuel
    obtain ⟨fuel, rfl⟩ : ∃ f, fuel = f + 1 := ⟨fuel - 1, by omega⟩
    apply deleteRecursive_tree_finish t segs fuel hwf hmem
    have hnil : t.childNames segs = [] := by
      rw [List.eq_nil_iff_forall_not_mem]
      intro k hk
      rw [mem_childNames] at hk
      obtain ⟨n, hn, hp⟩ := List.mem_map.mp hk
      have := hbound n hn (by rw [hp]; exact List.prefix_append _ _)
      rw [hp] at this
      simp at this
    rw [hnil]
    exact ⟨rfl, rfl, rfl, cleanDeletes_nil⟩
  | succ d ih =>
    intro t segs fuel hwf hmem hbound hfuel
    obtain ⟨fuel, rfl⟩ : ∃ f, fuel = f + 1 := ⟨fuel - 1, by omega⟩
    apply deleteRecursive_tree_finish t segs fuel hwf hmem
    apply deleteKeys_tree fuel d segs
      (fun t' k hwf' hk hb => ih t' (segs ++ [k]) fuel hwf' hk hb (by omega))
      (t.childNames segs) t hwf hmem (childNames_nodup t segs hwf.1)
      (fun k hk => (mem_childNames t segs k).mp hk)
    intro n hn k _ hpre
    have := hbound n hn (prefix_of_snoc hpre)
    omega


/-- C1: in the tree model (well-formed tree, no other client), for every path
that names an existing node and every fuel beyond the depth of the tree,
`deleteRecursive` returns `nil`; the tree it leaves is the old one without the
subtree: the path and its descendants are gone (listing them fails with
not-found), and every node outside the subtree is there as before. -/
theorem deleteRecursive_removes_subtree (t : Tree) (path : Str) (segs : List Str) (fuel : Nat)
    (hwf : t.WF) (hp : parsePath path = some segs) (hex : segs ∈ t.paths)
    (hfuel : t.depth < fuel) :
    (deleteRecursive treeOps fuel path t).1 = some none ∧
    (deleteRecursive treeOps fuel path t).2.1 = t.prune segs ∧
    (∀ q ∈ t.paths, segs <+: q →
      q ∉ ((deleteRecursive treeOps fuel path t).2.1).paths ∧
      (treeOps.children (render q) (deleteRecursive treeOps fuel path t).2.1).1 =
        .error .noNode) ∧
    (∀ q, ¬ segs <+: q →
      ((deleteRecursive treeOps fuel path t).2.1).node? q = t.node? q) ∧
    (∀ n, n ∈ (deleteRecursive treeOps fuel path t).2.1 ↔ n ∈ t ∧ ¬ segs <+: n.path) := by
  obtain ⟨hpath, _⟩ := render_of_parsePath path segs hp
  subst hpath
  obtain ⟨h1, h2, _, _⟩ := deleteRecursive_tree t.depth t segs fuel hwf hex
    (fun n hn _ => (le_depth hn).trans (Nat.le_add_left _ _)) hfuel
  refine ⟨h1, h2, ?_, ?_, ?_⟩
  · intro q hq hpre
    rw [h2]
    have hnot : q ∉ (t.prune segs).paths := fun hmem => (mem_paths_prune.mp hmem).2 hpre
    refine ⟨hnot, ?_⟩
    simp [treeOps, parsePath_render q (wf_good hwf hq), node?_none_of_not_mem hnot]
  · intro q hq
    rw [h2, node?_prune _ _ _ hq]
  · intro n
    rw [h2]
    exact mem_prune

/-- C1 on the sample tree: `deleteRecursive("/a")` returns `nil` and leaves
`/` and `/d`. -/
theorem deleteRecursive_removes_subtree_witness :
    (deleteRecursive treeOps 3 "/a".toList sampleTree).1 = some none ∧
      (deleteRecursive treeOps 3 "/a".toList sampleTree).2.1 =
        [ { path := [], data := [], version := 0 },
          { path := ["d".toList], data := [], version := 7 } ] :=
  ⟨(deleteRecursive_removes_subtree sampleTree "/a".toList ["a".toList] 3 (by decide)
      (by decide) (by decide) (by decide)).1,
    (deleteRecursive_removes_subtree sampleTree "/a".toList ["a".toList] 3 (by decide)
      (by decide) (by decide) (by decide)).2.1.trans (by decide)⟩

/-- C2: in every run of `deleteRecursive` on the tree model (well-formed tree,
fuel beyond its depth), every `Delete` is issued in a state in which its node
has no children, and succeeds; it comes right after a successful `Get` on the
same path and carries the version that `Get` returned; and when the path names
an existing node the `Delete` calls are the nodes of its subtree in
post-order, children in listing order. -/
theorem deleteRecursive_post_order (t : Tree) (path : Str) (fuel : Nat) (hwf : t.WF)
    (hfuel : t.depth < fuel) :
    (∀ s q v r, .call s (.delete q v r) ∈ (deleteRecursive treeOps fuel path t).2.2 →
      r = none ∧ ∃ segs, parsePath q = some segs ∧ s.childNames segs = []) ∧
    (∀ pre post s q v r,
      (deleteRecursive treeOps fuel path t).2.2 = pre ++ .call s (.delete q v r) :: post →
      ∃ pre' s' d, pre = pre' ++ [.call s' (.get q (.ok (d, { version := v })))]) ∧
    (∀ segs, parsePath path = some segs → segs ∈ t.paths →
      deletedPaths (deleteRecursive treeOps fuel path t).2.2 =
        (postOrder t fuel segs).map render) := by
  refine ⟨?_, deleteRecursive_guarded treeOps fuel path t, ?_⟩
  · obtain ⟨fuel, rfl⟩ : ∃ f, fuel = f + 1 := ⟨fuel - 1, by omega⟩
    rcases hp : parsePath path with _ | segs
    · rw [deleteRecursive_children_error treeOps fuel path t .badArguments
        (by simp [treeOps, hp])]
      intro s q v r h
      simp at h
    · by_cases hex : segs ∈ t.paths
      · obtain ⟨hpath, _⟩ := render_of_parsePath path segs hp
        subst hpath
        exact (deleteRecursive_tree t.depth t segs (fuel + 1) hwf hex
          (fun n hn _ => (le_depth hn).trans (Nat.le_add_left _ _)) hfuel).2.2.2
      · rw [deleteRecursive_children_error treeOps fuel path t .noNode
          (by simp [treeOps, hp, node?_none_of_not_mem hex])]
        intro s q v r h
        simp at h
  · intro segs hp hex
    obtain ⟨hpath, _⟩ := render_of_parsePath path segs hp
    subst hpath
    exact (deleteRecursive_tree t.depth t segs fuel hwf hex
      (fun n hn _ => (le_depth hn).trans (Nat.le_add_left _ _)) hfuel).2.2.1

/-- C2 on the sample tree: `deleteRecursive("/a")` deletes `/a/b`, `/a/c` and
then `/a`. -/
theorem deleteRecursive_post_order_witness :
    deletedPaths (deleteRecursive treeOps 3 "/a".toList sampleTree).2.2 =
      ["/a/b".toList, "/a/c".toList, "/a".toList] :=
  ((deleteRecursive_post_order sampleTree "/a".toList 3 (by decide) (by decide)).2.2
    ["a".toList] (by decide) (by decide)).trans (by decide)


/-- The tree service is the model of the claims: `Children` and `Get` fail
exactly when the path names no node, `Get` returns the version of the node,
`Delete` succeeds exactly when the node exists, has the given version and has
no children, and only a successful `Delete` changes the tree. -/
theorem treeOps_model (t : Tree) (path : Str) (v : Int) :
    ((∃ err, (treeOps.children path t).1 = .error err) ↔
      ¬ ∃ segs, parsePath path = some segs ∧ segs ∈ t.paths) ∧
    ((∃ err, (treeOps.get path t).1 = .error err) ↔
      ¬ ∃ segs, parsePath path = some segs ∧ segs ∈ t.paths) ∧
    (∀ segs n, parsePath path = some segs → t.node? segs = some n →
      (treeOps.get path t).1 = .ok (n.data, { version := n.version }) ∧
      (treeOps.children path t).1 = .ok (t.childNames segs, { version := n.version })) ∧
    ((treeOps.delete path v t).1 = none ↔
      ∃ segs n, parsePath path = some segs ∧ t.node? segs = some n ∧ n.version = v ∧
        t.childNames segs = []) ∧
    (treeOps.children path t).2 = t ∧ (treeOps.get path t).2 = t ∧
    ((treeOps.delete path v t).1 ≠ none → (treeOps.delete path v t).2 = t) := by
  rcases hp : parsePath path with _ | segs
  · simp [treeOps, hp]
  · rcases hn : t.node? segs with _ | n
    · have hnot : segs ∉ t.paths := fun h => by
        obtain ⟨m, hm⟩ := node?_of_mem_paths h
        rw [hn] at hm; cases hm
      simp only [treeOps, hp, hn, hnot]
      simp only [Option.some.injEq, exists_eq_left, not_false_eq_true, iff_true, reduceCtorEq,
        false_iff, not_exists, not_and, ne_eq, not_true_eq_false, false_and, exists_false,
        exists_const, and_false, and_true, true_and, imp_self, implies_true, Except.error.injEq,
        exists_eq', IsEmpty.forall_iff]
      refine ⟨?_, ?_, ?_, ?_⟩
      · exact ⟨fun _ x hx => hx ▸ hnot, fun _ => trivial⟩
      · exact ⟨fun _ x hx => hx ▸ hnot, fun _ => trivial⟩
      · intro s1 n1 h1 h2
        subst h1
        rw [hn] at h2; cases h2
      · intro s1 n1 h1 h2
        subst h1
        rw [hn] at h2; cases h2
    · have hmem := mem_paths_of_node? hn
      have hget : ∀ s1 n1, segs = s1 → t.node? s1 = some n1 → n1 = n := by
        intro s1 n1 h1 h2
        subst h1
        rw [hn] at h2; cases h2; rfl
      refine ⟨?_, ?_, ?_, ?_, ?_, ?_, ?_⟩
      · simp [treeOps, hp, hn, hmem]
      · simp [treeOps, hp, hn, hmem]
      · intro s1 n1 h1 h2
        cases h1
        rw [hn] at h2; cases h2
        simp [treeOps, hp, hn]
      · constructor
        · intro h
          refine ⟨segs, n, rfl, hn, ?_, ?_⟩
          · by_contra hv
            simp [treeOps, hp, hn, hv] at h
          · by_contra hc
            by_cases hv : n.version = v
            · simp [treeOps, hp, hn, hv, hc] at h
            · simp [treeOps, hp, hn, hv] at h
        · rintro ⟨s1, n1, h1, h2, h3, h4⟩
          cases h1
          rw [hn] at h2; cases h2
          simp [treeOps, hp, hn, h3, h4]
      · simp [treeOps, hp, hn]
      · simp [treeOps, hp, hn]
      · intro h
        by_cases hv : n.version = v
        · by_cases hc : t.childNames segs = []
          · simp [treeOps, hp, hn, hv, hc] at h
          · simp [treeOps, hp, hn, hv, hc]
        · simp [treeOps, hp, hn, hv]
end Zkctl
